import Mathlib

/-!
# Verification of the Transpo client-side streaming codec

Shallow embedding of the client-side encryption/decryption pipeline of the
Transpo file-transfer tool:

* `src/www/js/transpo/upload.js` — `encryptStream` (the Encryptor) and
  `readToSocket` / `updateProgress` (the backpressure-aware upload writer);
* `src/www/js/transpo/download_for_worker.js` — `readChunk`, `sizedRead`,
  `decryptBufferAndEnqueue` and `decryptedStream` (the Decryptor);
* `src/www/js/transpo/crypto_for_worker.js` — `nonceFromCount` and the
  segment-size constants (this file is the documented verbatim copy of the
  `crypto.js` module used by `upload.js`/`download.js`);
* the legacy non-module variants (`src/unnamed/part_003`, `part_011`,
  `part_014`) where the claims reference them.

Bytes are modelled as `Nat` (values kept below 256 by the operations that
produce them), byte buffers as `List Nat`.  The browser's AES-GCM primitive is
an external black box; it is modelled by the abstract structure `AEAD`
(encryption adds a 16-byte tag; decryption with the matching counter inverts
encryption), with a concrete executable instance `xorTagAEAD` used for
witnesses.  JavaScript floating point (used by `nonceFromCount`) is modelled
exactly by `ℚ`, which is lossless for the dyadic values that arise there.
-/

namespace Transpo

/-- `maxPlaintextSegmentSize` from `crypto_for_worker.js`. -/
def maxPlaintextSegmentSize : Nat := 10240

/-- `maxCiphertextSegmentSize = maxPlaintextSegmentSize + 16` from
`crypto_for_worker.js`. -/
def maxCiphertextSegmentSize : Nat := maxPlaintextSegmentSize + 16

/-- Size of the decoder's scratch buffer:
`new Uint8Array(2 + maxCiphertextSegmentSize)` in `decryptedStream`. -/
def scratchSize : Nat := 2 + maxCiphertextSegmentSize

theorem maxCiphertextSegmentSize_eq : maxCiphertextSegmentSize = 10256 := rfl

theorem scratchSize_eq : scratchSize = 10258 := rfl

/-- Abstract model of the browser's AEAD primitive for one fixed key, as used
through `encrypt(key, count, plaintext)` / `decrypt(key, count, ciphertext)`
of `crypto_for_worker.js`: the ciphertext is 16 bytes (the tag) longer than
the plaintext, all ciphertext entries are bytes, and decryption under the
counter used for encryption recovers the plaintext.  The primitive itself is
an external collaborator (spec §1), so it is a parameter of the development
rather than a definition translated from source. -/
structure AEAD where
  enc : Nat → List Nat → List Nat
  dec : Nat → List Nat → Option (List Nat)
  enc_length : ∀ c p, (enc c p).length = p.length + 16
  dec_enc : ∀ c p, dec c (enc c p) = some p

/-- Concrete executable AEAD used for witnesses: the "tag" is 16 copies of
`count % 256` and decryption checks it. -/
def tagAEAD : AEAD where
  enc c p := p ++ List.replicate 16 (c % 256)
  dec c ct :=
    if 16 ≤ ct.length ∧ ct.drop (ct.length - 16) = List.replicate 16 (c % 256) then
      some (ct.take (ct.length - 16))
    else
      none
  enc_length c p := by simp
  dec_enc c p := by
    have hlen : (p ++ List.replicate 16 (c % 256)).length = p.length + 16 := by simp
    simp [hlen, List.drop_append_of_le_length, List.take_append_of_le_length]

/-- Wire framing of one ciphertext: the 2-byte big-endian length prefix
followed by the ciphertext, mirroring
`segmentPrefix[0] = byteLength / 256; segmentPrefix[1] = byteLength % 256`
(the JavaScript fractional division is truncated by the `Uint8Array`
coercion, hence the `/ 256 % 256`). -/
def record (ct : List Nat) : List Nat :=
  (ct.length / 256) % 256 :: ct.length % 256 :: ct

theorem record_length (ct : List Nat) : (record ct).length = 2 + ct.length := by
  simp [record]; omega

/-! ## The Encryptor (`encryptStream` in `upload.js`)

`encryptStream` keeps the state `(filePlaintext, segmentStart, segmentEnd,
count)` and a reader over the source chunks.  Each `pull`:
* if `segmentEnd >= filePlaintext.length`, reads the next source chunk
  (emitting the 2-zero-byte terminator and closing if the source is done),
  resetting `segmentStart = segmentEnd = 0`;
* then emits the segment `filePlaintext.subarray(segmentStart, segmentEnd')`
  with `segmentEnd' = min(segmentStart + maxPlaintextSegmentSize, length)`,
  encrypted with the current `count`, and advances.

The model emits `(count, plaintextSegment)` pairs; the wire bytes are
assembled by `record` applied to the encrypted segment, exactly as the two
`controller.enqueue` calls do. -/

structure EncState where
  chunks : List (List Nat)
  filePlaintext : List Nat
  segmentStart : Nat
  segmentEnd : Nat
  count : Nat
  deriving Repr, DecidableEq

/-- The part of `pull` after the (possible) source read: compute
`segmentEnd`, slice the segment, encrypt/emit, advance. -/
def encEmit (st : EncState) : (Nat × List Nat) × EncState :=
  let e := min (st.segmentStart + maxPlaintextSegmentSize) st.filePlaintext.length
  let seg := (st.filePlaintext.drop st.segmentStart).take (e - st.segmentStart)
  ((st.count, seg),
   { st with count := st.count + 1,
             segmentStart := st.segmentStart + seg.length,
             segmentEnd := e })

/-- One `pull` of `encryptStream`'s `ReadableStream`: `none` means the
terminator was enqueued and the stream closed. -/
def encPull (st : EncState) : Option ((Nat × List Nat) × EncState) :=
  if st.filePlaintext.length ≤ st.segmentEnd then
    match st.chunks with
    | [] => none
    | c :: rest =>
      some (encEmit { st with chunks := rest, filePlaintext := c,
                              segmentStart := 0, segmentEnd := 0 })
  else some (encEmit st)

/-- Drive `encPull` with `fuel` pulls, collecting the emitted
`(count, segment)` pairs; the boolean records whether the stream closed
(terminator emitted) within the fuel. -/
def encRun : Nat → EncState → List (Nat × List Nat) × Bool
  | 0, _ => ([], false)
  | fuel + 1, st =>
    match encPull st with
    | none => ([], true)
    | some (out, st') =>
      let r := encRun fuel st'
      (out :: r.1, r.2)

/-- Initial `encryptStream` state: empty current buffer, `count = 2`
("Start at 2 since we first encrypt the file name and mime type"). -/
def encInit (chunks : List (List Nat)) : EncState := ⟨chunks, [], 0, 0, 2⟩

/-! ### Reference segmentation

`chunkSegs` is the pure re-chunking `encryptStream` applies to a single
source chunk; `plainSegments` to the whole source.  The characterization
theorem `encRun_spec` below proves the state machine emits exactly these
segments, paired with consecutive counter values. -/

/-- Segments produced from one source chunk: groups of
`maxPlaintextSegmentSize` bytes; an empty chunk yields one empty segment
(the code encrypts the empty subarray in that case). -/
def chunkSegs (l : List Nat) : List (List Nat) :=
  if h : l.length ≤ maxPlaintextSegmentSize then [l]
  else
    l.take maxPlaintextSegmentSize :: chunkSegs (l.drop maxPlaintextSegmentSize)
termination_by l.length
decreasing_by
  simp only [List.length_drop]
  have : 0 < maxPlaintextSegmentSize := by norm_num [maxPlaintextSegmentSize]
  omega

/-- All content segments for a source delivered as `chunks`. -/
def plainSegments (chunks : List (List Nat)) : List (List Nat) :=
  (chunks.map chunkSegs).flatten

/-- Segments remaining from chunk `c` once the cursor is at `s`. -/
def segsRem (c : List Nat) (s : Nat) : List (List Nat) :=
  if c.length ≤ s then [] else chunkSegs (c.drop s)

/-- Pair each segment with its counter, starting at `k` — the reference for
the counter sequencing of `encryptStream`. -/
def withCounts : Nat → List (List Nat) → List (Nat × List Nat)
  | _, [] => []
  | k, s :: rest => (k, s) :: withCounts (k + 1) rest

theorem chunkSegs_flatten (l : List Nat) : (chunkSegs l).flatten = l := by
  induction l using chunkSegs.induct with
  | case1 l h => rw [chunkSegs]; simp [h]
  | case2 l h ih =>
    rw [chunkSegs]
    simp only [h, dite_false, List.flatten_cons, ih, List.take_append_drop]

theorem plainSegments_flatten (chunks : List (List Nat)) :
    (plainSegments chunks).flatten = chunks.flatten := by
  induction chunks with
  | nil => rfl
  | cons c rest ih =>
    simp only [plainSegments, List.map_cons, List.flatten_cons, List.flatten_append] at *
    rw [ih, chunkSegs_flatten]

theorem chunkSegs_length_le (l : List Nat) :
    ∀ s ∈ chunkSegs l, s.length ≤ maxPlaintextSegmentSize := by
  induction l using chunkSegs.induct with
  | case1 l h =>
    rw [chunkSegs]; simp only [h, dite_true, List.mem_singleton]
    rintro s rfl; exact h
  | case2 l h ih =>
    rw [chunkSegs]
    simp only [h, dite_false, List.mem_cons]
    rintro s (rfl | hs)
    · simp
    · exact ih s hs

theorem plainSegments_length_le (chunks : List (List Nat)) :
    ∀ s ∈ plainSegments chunks, s.length ≤ maxPlaintextSegmentSize := by
  intro s hs
  simp only [plainSegments, List.mem_flatten, List.mem_map] at hs
  obtain ⟨_, ⟨c, _, rfl⟩, hin⟩ := hs
  exact chunkSegs_length_le c s hin

theorem withCounts_length (k : Nat) (l : List (List Nat)) :
    (withCounts k l).length = l.length := by
  induction l generalizing k with
  | nil => rfl
  | cons s rest ih => simp [withCounts, ih]

theorem withCounts_append (k : Nat) (l₁ l₂ : List (List Nat)) :
    withCounts k (l₁ ++ l₂) = withCounts k l₁ ++ withCounts (k + l₁.length) l₂ := by
  induction l₁ generalizing k with
  | nil => simp [withCounts]
  | cons s rest ih =>
    have harith : k + 1 + rest.length = k + (rest.length + 1) := by omega
    simp only [List.cons_append, withCounts, List.append_eq, List.length_cons]
    rw [ih, harith]

/-- The head segment the machine emits at cursor `s` of chunk `c`, plus the
tail — valid at any cursor `s ≤ c.length`, including the corner where the
current chunk is empty. -/
theorem chunkSegs_drop (c : List Nat) (s : Nat) (hs : s ≤ c.length) :
    chunkSegs (c.drop s) =
      (c.drop s).take maxPlaintextSegmentSize ::
        segsRem c (min (s + maxPlaintextSegmentSize) c.length) := by
  rw [chunkSegs]
  by_cases h : (c.drop s).length ≤ maxPlaintextSegmentSize
  · simp only [h, dite_true]
    have : min (s + maxPlaintextSegmentSize) c.length = c.length := by
      simp only [List.length_drop] at h; omega
    rw [this, List.take_of_length_le h]
    simp [segsRem]
  · simp only [h, dite_false]
    have hlen : c.length - s > maxPlaintextSegmentSize := by
      simp only [List.length_drop] at h; omega
    have hmin : min (s + maxPlaintextSegmentSize) c.length =
        s + maxPlaintextSegmentSize := by omega
    rw [hmin, segsRem, if_neg (by omega), List.drop_drop]

theorem take_min (l : List Nat) (n : Nat) : l.take (min n l.length) = l.take n := by
  rcases Nat.le_total n l.length with h | h
  · rw [Nat.min_eq_left h]
  · rw [Nat.min_eq_right h, List.take_of_length_le h, List.take_of_length_le (le_refl _)]

theorem encRun_some {st : EncState} {out : Nat × List Nat} {st' : EncState}
    (h : encPull st = some (out, st')) (fuel : Nat) :
    encRun (fuel + 1) st = (out :: (encRun fuel st').1, (encRun fuel st').2) := by
  simp [encRun, h]

theorem encRun_none {st : EncState} (h : encPull st = none) (fuel : Nat) :
    encRun (fuel + 1) st = ([], true) := by
  simp [encRun, h]

theorem encPull_done (c : List Nat) (s k : Nat) (h : c.length ≤ s) :
    encPull ⟨[], c, s, s, k⟩ = none := by
  simp [encPull, h]

theorem encEmit_boundary (chunks : List (List Nat)) (c : List Nat) (s k : Nat)
    (hs : s ≤ c.length) :
    encEmit ⟨chunks, c, s, s, k⟩ =
      ((k, (c.drop s).take maxPlaintextSegmentSize),
       ⟨chunks, c, min (s + maxPlaintextSegmentSize) c.length,
                min (s + maxPlaintextSegmentSize) c.length, k + 1⟩) := by
  have h2 : (c.drop s).take (min (s + maxPlaintextSegmentSize) c.length - s) =
      (c.drop s).take maxPlaintextSegmentSize := by
    have h1 : min (s + maxPlaintextSegmentSize) c.length - s =
        min maxPlaintextSegmentSize (c.drop s).length := by
      simp only [List.length_drop]; omega
    rw [h1, take_min]
  have h3 : s + ((c.drop s).take maxPlaintextSegmentSize).length =
      min (s + maxPlaintextSegmentSize) c.length := by
    simp only [List.length_take, List.length_drop]
    omega
  simp [encEmit, h2, h3]
  omega

theorem encPull_read (c' : List Nat) (rest : List (List Nat)) (c : List Nat) (s k : Nat)
    (h : c.length ≤ s) :
    encPull ⟨c' :: rest, c, s, s, k⟩ =
      some ((k, c'.take maxPlaintextSegmentSize),
            ⟨rest, c', min maxPlaintextSegmentSize c'.length,
                    min maxPlaintextSegmentSize c'.length, k + 1⟩) := by
  have hb := encEmit_boundary rest c' 0 k (Nat.zero_le _)
  simp only [List.drop_zero, Nat.zero_add] at hb
  simp [encPull, h, hb]

theorem encPull_emit (chunks : List (List Nat)) (c : List Nat) (s k : Nat)
    (h : s < c.length) :
    encPull ⟨chunks, c, s, s, k⟩ =
      some ((k, (c.drop s).take maxPlaintextSegmentSize),
            ⟨chunks, c, min (s + maxPlaintextSegmentSize) c.length,
                     min (s + maxPlaintextSegmentSize) c.length, k + 1⟩) := by
  have hb := encEmit_boundary chunks c s k (le_of_lt h)
  simp [encPull, Nat.not_le.mpr h, hb]

/-- Characterization of the Encryptor: run from a state at a segment
boundary (`segmentStart = segmentEnd = s`), with enough fuel, the machine
emits the remaining segments of the current chunk followed by the segments
of the remaining chunks, numbered consecutively from `k`, and closes
(emitting the terminator). -/
theorem encRun_spec (fuel : Nat) :
    ∀ (chunks : List (List Nat)) (c : List Nat) (s k : Nat),
    s ≤ c.length →
    (segsRem c s).length + (plainSegments chunks).length + 1 ≤ fuel →
    encRun fuel ⟨chunks, c, s, s, k⟩ =
      (withCounts k (segsRem c s ++ plainSegments chunks), true) := by
  induction fuel with
  | zero => intro chunks c s k _ hf; omega
  | succ fuel ih =>
    intro chunks c s k hs hf
    by_cases hread : c.length ≤ s
    · have hrem : segsRem c s = [] := by simp [segsRem, hread]
      cases chunks with
      | nil =>
        rw [encRun_none (encPull_done c s k hread) fuel]
        simp [hrem, plainSegments, withCounts]
      | cons c' rest =>
        have hseg : chunkSegs c' =
            c'.take maxPlaintextSegmentSize ::
              segsRem c' (min maxPlaintextSegmentSize c'.length) := by
          have := chunkSegs_drop c' 0 (Nat.zero_le _)
          simpa using this
        have hps : plainSegments (c' :: rest) = chunkSegs c' ++ plainSegments rest := by
          simp [plainSegments]
        have hfuel' :
            (segsRem c' (min maxPlaintextSegmentSize c'.length)).length +
              (plainSegments rest).length + 1 ≤ fuel := by
          rw [hrem, hps, hseg] at hf
          simp only [List.nil_append, List.length_append, List.length_cons] at hf
          omega
        rw [encRun_some (encPull_read c' rest c s k hread) fuel,
            ih rest c' (min maxPlaintextSegmentSize c'.length) (k + 1)
              (Nat.min_le_right _ _) hfuel']
        rw [hrem, hps, hseg]
        simp [withCounts]
    · push_neg at hread
      have hrem : segsRem c s = chunkSegs (c.drop s) := by
        simp [segsRem, Nat.not_le.mpr hread]
      have hseg := chunkSegs_drop c s hs
      have hfuel' :
          (segsRem c (min (s + maxPlaintextSegmentSize) c.length)).length +
            (plainSegments chunks).length + 1 ≤ fuel := by
        rw [hrem, hseg] at hf
        simp only [List.length_cons] at hf
        omega
      rw [encRun_some (encPull_emit chunks c s k hread) fuel,
          ih chunks c (min (s + maxPlaintextSegmentSize) c.length) (k + 1)
            (Nat.min_le_right _ _) hfuel']
      rw [hrem, hseg]
      simp [withCounts]

/-- The Encryptor's full emission from the initial state: each content
segment of `plainSegments chunks`, in order, paired with counters
`2, 3, 4, …`, with the stream closing after the terminator. -/
theorem encRun_init (chunks : List (List Nat)) :
    encRun ((plainSegments chunks).length + 1) (encInit chunks) =
      (withCounts 2 (plainSegments chunks), true) := by
  have := encRun_spec ((plainSegments chunks).length + 1) chunks [] 0 2
    (Nat.zero_le _) (by simp [segsRem])
  simpa [encInit, segsRem] using this

/-! ## Wire format

A transfer's byte stream as the downloader receives it (spec §6 "Wire
format"): the framed name record (counter 0), the framed MIME record
(counter 1), one framed record per content segment (counters 2, 3, …), and
the 2-zero-byte terminator. -/

/-- Frame a list of ciphertexts and append the terminator. -/
def wireRecords (cts : List (List Nat)) : List Nat :=
  (cts.map record).flatten ++ [0, 0]

/-- All ciphertext records of a transfer, in wire order. -/
def transferRecords (A : AEAD) (name mime : List Nat) (chunks : List (List Nat)) :
    List (List Nat) :=
  A.enc 0 name :: A.enc 1 mime ::
    (withCounts 2 (plainSegments chunks)).map (fun cs => A.enc cs.1 cs.2)

/-- The complete wire stream of a transfer. -/
def encodeTransfer (A : AEAD) (name mime : List Nat) (chunks : List (List Nat)) :
    List Nat :=
  wireRecords (transferRecords A name mime chunks)

/-- `encodeTransfer`'s content part is exactly what the `encryptStream`
machine emits: the records framed from `encRun`'s emissions followed by the
terminator. -/
theorem encodeTransfer_eq_machine (A : AEAD) (name mime : List Nat)
    (chunks : List (List Nat)) :
    encodeTransfer A name mime chunks =
      record (A.enc 0 name) ++ record (A.enc 1 mime) ++
        ((((encRun ((plainSegments chunks).length + 1) (encInit chunks)).1).map
            (fun cs => record (A.enc cs.1 cs.2))).flatten ++ [0, 0]) := by
  rw [encRun_init]
  simp [encodeTransfer, wireRecords, transferRecords, List.map_map]
  rfl

/-! ## The Decryptor (`decryptBufferAndEnqueue` / `decryptedStream` in
`download_for_worker.js`)

The decoder state is the scratch buffer (modelled as the *valid region*:
the first `segmentWriteStart` bytes of the 10258-byte `Uint8Array`), the
decryption counter, and the `isFinished` flag.  Stream-controller calls are
recorded as an explicit event list (`enqueue`, `close`, `error`), so the
theorems can speak about what the decoder signals on its output stream.
Array accesses are modelled with checked reads/writes whose out-of-bounds
branch emits a distinguished `oob` error; the safety claims prove these
branches unreachable. -/

inductive DErr
  | copiedZero      -- controller.error(new Error("copied 0 bytes from buffer"))
  | segmentTooBig   -- controller.error(new Error("Segment too big"))
  | downloadFailed  -- controller.error(new Error("Download failed")) in the fallback pull
  | oob             -- instrumentation: an access outside the scratch buffer
  deriving Repr, DecidableEq

inductive DEvent
  | enqueue (p : List Nat)  -- controller.enqueue(segmentPlaintext)
  | close                   -- controller.close() / controller.terminate()
  | error (e : DErr)        -- controller.error(...)
  deriving Repr, DecidableEq

/-- How the inner decrypt loop of `decryptBufferAndEnqueue` stopped. -/
inductive InnerStatus
  | more      -- partial record: wait for more input
  | finished  -- terminator seen
  | errored   -- controller.error was called, loop broken
  | threw     -- `await decrypt(...)` rejected: the whole call aborts
  deriving Repr, DecidableEq

structure DState where
  seg : List Nat      -- valid region of `state.segment` (first `segmentWriteStart` bytes)
  count : Nat         -- state.count
  isFinished : Bool   -- state.isFinished
  deriving Repr, DecidableEq

/-- The inner `while (segmentReadStart + 2 <= segmentReadEnd)` loop of
`decryptBufferAndEnqueue`, scanning the valid region `seg` from read
position `rs`.  Returns the events, the final read position, the final
counter and the stop status. -/
def innerLoop (A : AEAD) (seg : List Nat) (count rs : Nat) :
    List DEvent × Nat × Nat × InnerStatus :=
  if h2 : rs + 2 ≤ seg.length then
    match seg[rs]?, seg[rs + 1]? with
    | some b0, some b1 =>
      let size := b0 * 256 + b1
      if size = 0 then
        ([DEvent.close], rs, count, InnerStatus.finished)
      else if maxCiphertextSegmentSize < size then
        ([DEvent.error DErr.segmentTooBig], rs, count, InnerStatus.errored)
      else if seg.length < rs + 2 + size then
        ([], rs, count, InnerStatus.more)
      else
        match A.dec count ((seg.drop (rs + 2)).take size) with
        | none => ([], rs, count, InnerStatus.threw)
        | some p =>
          let r := innerLoop A seg (count + 1) (rs + 2 + size)
          (DEvent.enqueue p :: r.1, r.2)
    | _, _ => ([DEvent.error DErr.oob], rs, count, InnerStatus.errored)
  else ([], rs, count, InnerStatus.more)
termination_by seg.length - rs
decreasing_by omega

/-- The outer `while (bufferReadStart < buffer.byteLength)` loop of
`decryptBufferAndEnqueue`: copy as much of the buffer as fits into the
scratch, run the inner loop from position 0, compact, repeat. -/
def dbaeLoop (A : AEAD) (buffer : List Nat) (brs : Nat) (st : DState) :
    List DEvent × DState :=
  if hb : brs < buffer.length then
    -- copyLen = min(remainingSegment, remainingBuffer)
    if hc : min (scratchSize - st.seg.length) (buffer.length - brs) = 0 then
      ([DEvent.error DErr.copiedZero], st)
    else if hset : scratchSize <
        st.seg.length + min (scratchSize - st.seg.length) (buffer.length - brs) then
      ([DEvent.error DErr.oob], st)
    else
      match innerLoop A
          (st.seg ++ (buffer.drop brs).take
            (min (scratchSize - st.seg.length) (buffer.length - brs)))
          st.count 0 with
      | (evs, _, count', InnerStatus.threw) =>
        -- the rejected decrypt aborts the call: no compaction happens
        (evs,
         ⟨st.seg ++ (buffer.drop brs).take
            (min (scratchSize - st.seg.length) (buffer.length - brs)),
          count', st.isFinished⟩)
      | (evs, rs', count', status) =>
        let st' : DState :=
          ⟨(st.seg ++ (buffer.drop brs).take
              (min (scratchSize - st.seg.length) (buffer.length - brs))).drop rs',
           count', st.isFinished || (status == InnerStatus.finished)⟩
        let rest := dbaeLoop A buffer
          (brs + min (scratchSize - st.seg.length) (buffer.length - brs)) st'
        (evs ++ rest.1, rest.2)
  else ([], st)
termination_by buffer.length - brs
decreasing_by all_goals omega

/-- `decryptBufferAndEnqueue(buffer, controller, key, state)`. -/
def dbae (A : AEAD) (buffer : List Nat) (st : DState) : List DEvent × DState :=
  dbaeLoop A buffer 0 st

/-- Feed a sequence of delivery buffers through `decryptBufferAndEnqueue`,
as the `TransformStream` path does (`start` feeds the header leftover, then
`transform` feeds each network buffer). -/
def feedAll (A : AEAD) : List (List Nat) → DState → List DEvent × DState
  | [], st => ([], st)
  | b :: rest, st =>
    let r := dbae A b st
    let r2 := feedAll A rest r.2
    (r.1 ++ r2.1, r2.2)

/-- Initial content-phase state of `decryptedStream`: empty scratch,
`count = 2` ("count starts at 2 since we first decrypt file name and mime
type"), not finished. -/
def dInit : DState := ⟨[], 2, false⟩

/-- `sizedRead(reader, buffer, size)`: accumulate reads until `buffer` holds
at least `size` bytes; `none` models the thrown
"Unexpected end of stream". -/
def sizedRead (bufs : List (List Nat)) (buffer : List Nat) (size : Nat) :
    Option (List Nat × List (List Nat)) :=
  if size ≤ buffer.length then some (buffer, bufs)
  else
    match bufs with
    | [] => none
    | b :: rest => sizedRead rest (buffer ++ b) size

inductive HdrErr
  | endOfStream   -- "Unexpected end of stream"
  | chunkTooLong  -- "Chunk too long"
  | authFail      -- decrypt(key, …) rejected on the name or MIME record
  deriving Repr, DecidableEq

/-- `readChunk(reader, buffer, maxLength)`: read one length-prefixed record,
rejecting a declared length above `maxLength`. -/
def readChunk (bufs : List (List Nat)) (buffer : List Nat) (maxLength : Nat) :
    Except HdrErr (List Nat × List Nat × List (List Nat)) :=
  match sizedRead bufs buffer 2 with
  | none => Except.error HdrErr.endOfStream
  | some (buf, bufs1) =>
    let len := buf.getD 0 0 * 256 + buf.getD 1 0
    if maxLength < len then Except.error HdrErr.chunkTooLong
    else
      match sizedRead bufs1 (buf.drop 2) len with
      | none => Except.error HdrErr.endOfStream
      | some (buf2, bufs2) => Except.ok (buf2.take len, buf2.drop len, bufs2)

/-- Result of a completed `decryptedStream` run. -/
structure DecodeOut where
  name : List Nat
  mime : List Nat
  events : List DEvent
  finished : Bool
  deriving Repr, DecidableEq

/-- Extract the plaintext chunks enqueued on the output stream. -/
def outputsOf (evs : List DEvent) : List (List Nat) :=
  evs.filterMap fun e => match e with | DEvent.enqueue p => some p | _ => none

/-- Extract the errors signalled on the output stream. -/
def errorsOf (evs : List DEvent) : List DErr :=
  evs.filterMap fun e => match e with | DEvent.error er => some er | _ => none

/-- Number of times the output stream was closed. -/
def closesOf (evs : List DEvent) : Nat :=
  (evs.filter fun e => e = DEvent.close).length

/-- `decryptedStream(r, key)`: read the name record (limit 512) and the MIME
record (limit 272), decrypt them with counters 0 and 1, then feed the
leftover and all remaining buffers through `decryptBufferAndEnqueue`. -/
def decryptedStream (A : AEAD) (bufs : List (List Nat)) : Except HdrErr DecodeOut :=
  match readChunk bufs [] 512 with
  | Except.error e => Except.error e
  | Except.ok (nameChunk, leftover, bufs1) =>
    match readChunk bufs1 leftover 272 with
    | Except.error e => Except.error e
    | Except.ok (mimeChunk, leftover2, bufs2) =>
      match A.dec 0 nameChunk, A.dec 1 mimeChunk with
      | some name, some mime =>
        let r := feedAll A (leftover2 :: bufs2) dInit
        Except.ok ⟨name, mime, r.1, r.2.isFinished⟩
      | _, _ => Except.error HdrErr.authFail

/-! ## Decoder correctness infrastructure -/

/-- Well-formed ciphertext records: nonempty (an AEAD ciphertext carries a
16-byte tag) and within the decoder's maximum. -/
def goodCts (cts : List (List Nat)) : Prop :=
  ∀ ct ∈ cts, 0 < ct.length ∧ ct.length ≤ maxCiphertextSegmentSize

/-- Decrypt a record sequence with consecutive counters from `count`. -/
def decList (A : AEAD) (count : Nat) : List (List Nat) → Option (List (List Nat))
  | [] => some []
  | ct :: rest =>
    match A.dec count ct with
    | none => none
    | some p => (decList A (count + 1) rest).map (p :: ·)

/-- Number of leading records whose framed form fits wholly in `n` bytes. -/
def fitCount : List (List Nat) → Nat → Nat
  | [], _ => 0
  | c :: rest, n => if 2 + c.length ≤ n then fitCount rest (n - (2 + c.length)) + 1 else 0

/-- Total framed length of a record sequence (without terminator). -/
def recsLen (cts : List (List Nat)) : Nat :=
  (cts.map (fun c => 2 + c.length)).sum

/-- Bytes needed before the decoder can act on the next record
(2 prefix bytes for the terminator; the full framed head record
otherwise). -/
def headRoom : List (List Nat) → Nat
  | [] => 2
  | c :: _ => 2 + c.length

/-- The decoder's between-feeds invariant: the scratch holds a proper
prefix of the remaining wire, too short to contain the next record (or the
terminator). -/
def Partial (seg : List Nat) (cts : List (List Nat)) : Prop :=
  seg <+: wireRecords cts ∧ seg.length < headRoom cts

theorem wireRecords_cons (c : List Nat) (rest : List (List Nat)) :
    wireRecords (c :: rest) = record c ++ wireRecords rest := by
  simp [wireRecords, record]

theorem wireRecords_length (cts : List (List Nat)) :
    (wireRecords cts).length = recsLen cts + 2 := by
  induction cts with
  | nil => rfl
  | cons c rest ih =>
    rw [wireRecords_cons]
    simp only [List.length_append, ih, recsLen, List.map_cons, List.sum_cons]
    simp [record]
    omega

theorem recsLen_cons (c : List Nat) (rest : List (List Nat)) :
    recsLen (c :: rest) = (2 + c.length) + recsLen rest := by
  simp [recsLen]

theorem recsLen_take_succ (c : List Nat) (rest : List (List Nat)) (m : Nat) :
    recsLen ((c :: rest).take (m + 1)) = (2 + c.length) + recsLen (rest.take m) := by
  simp [recsLen]

theorem fitCount_le_length (cts : List (List Nat)) (n : Nat) :
    fitCount cts n ≤ cts.length := by
  induction cts generalizing n with
  | nil => simp [fitCount]
  | cons c rest ih =>
    simp only [fitCount]
    split
    · simpa using Nat.succ_le_succ (ih _)
    · simp

theorem decList_cons (A : AEAD) (count : Nat) (c : List Nat) (rest plains : List (List Nat))
    (h : decList A count (c :: rest) = some plains) :
    ∃ p plains', A.dec count c = some p ∧
      decList A (count + 1) rest = some plains' ∧ plains = p :: plains' := by
  unfold decList at h
  cases hc : A.dec count c with
  | none => rw [hc] at h; simp at h
  | some p =>
    rw [hc] at h
    cases hr : decList A (count + 1) rest with
    | none => rw [hr] at h; simp at h
    | some plains' =>
      rw [hr] at h
      refine ⟨p, plains', rfl, rfl, ?_⟩
      simpa using h.symm

theorem decList_length (A : AEAD) :
    ∀ (cts : List (List Nat)) (count : Nat) (plains : List (List Nat)),
    decList A count cts = some plains → plains.length = cts.length := by
  intro cts
  induction cts with
  | nil => intro count plains h; simp [decList] at h; simp [← h]
  | cons c rest ih =>
    intro count plains h
    obtain ⟨p, plains', _, hr, rfl⟩ := decList_cons A count c rest plains h
    simp [ih _ _ hr]

theorem decList_drop (A : AEAD) :
    ∀ (m : Nat) (cts : List (List Nat)) (count : Nat) (plains : List (List Nat)),
    decList A count cts = some plains →
    decList A (count + m) (cts.drop m) = some (plains.drop m) := by
  intro m
  induction m with
  | zero => intro cts count plains h; simpa using h
  | succ m ih =>
    intro cts count plains h
    cases cts with
    | nil =>
      simp [decList] at h
      subst h
      simp [decList]
    | cons c rest =>
      obtain ⟨p, plains', _, hr, rfl⟩ := decList_cons A count c rest plains h
      have := ih rest (count + 1) plains' hr
      simpa [Nat.add_comm, Nat.add_assoc, Nat.add_left_comm] using this

theorem goodCts_drop (cts : List (List Nat)) (m : Nat) (h : goodCts cts) :
    goodCts (cts.drop m) := fun ct hct => h ct (List.mem_of_mem_drop hct)

/-- If the first `m` framed records fit in `n` bytes, `fitCount` splits. -/
theorem fitCount_split :
    ∀ (m : Nat) (cts : List (List Nat)) (n : Nat), m ≤ cts.length →
    recsLen (cts.take m) ≤ n →
    fitCount cts n = m + fitCount (cts.drop m) (n - recsLen (cts.take m)) := by
  intro m
  induction m with
  | zero => intro cts n _ _; simp [recsLen]
  | succ m ih =>
    intro cts n hm hr
    cases cts with
    | nil => simp at hm
    | cons c rest =>
      rw [recsLen_take_succ] at hr
      have hfit : 2 + c.length ≤ n := by
        have : 0 ≤ recsLen (rest.take m) := Nat.zero_le _
        omega
      simp only [fitCount, if_pos hfit, List.drop_succ_cons]
      rw [ih rest (n - (2 + c.length)) (by simpa using hm) (by omega)]
      rw [recsLen_take_succ]
      have : n - (2 + c.length) - recsLen (rest.take m) =
          n - ((2 + c.length) + recsLen (rest.take m)) := by omega
      rw [this]
      omega

/-- Greedy residue of `fitCount`: the consumed records fit, and the residue
is below the head room of the remainder unless the whole wire (records plus
terminator) is present. -/
theorem fitCount_residual :
    ∀ (cts : List (List Nat)) (n : Nat), n ≤ recsLen cts + 2 →
    recsLen (cts.take (fitCount cts n)) ≤ n ∧
      (n - recsLen (cts.take (fitCount cts n)) < headRoom (cts.drop (fitCount cts n)) ∨
        (fitCount cts n = cts.length ∧ n = recsLen cts + 2)) := by
  intro cts
  induction cts with
  | nil =>
    intro n hn
    simp only [recsLen, List.map_nil, List.sum_nil] at hn
    constructor
    · simp [fitCount, recsLen]
    · show n - recsLen [] < 2 ∨ (0 = 0 ∧ n = recsLen [] + 2)
      show n - 0 < 2 ∨ (0 = 0 ∧ n = 0 + 2)
      omega
  | cons c rest ih =>
    intro n hn
    by_cases hfit : 2 + c.length ≤ n
    · have hrec := ih (n - (2 + c.length)) (by rw [recsLen_cons] at hn; omega)
      simp only [fitCount, if_pos hfit, List.drop_succ_cons, recsLen_take_succ]
      constructor
      · omega
      · rcases hrec.2 with h | ⟨h1, h2⟩
        · left
          have : n - ((2 + c.length) + recsLen (rest.take (fitCount rest (n - (2 + c.length))))) =
              n - (2 + c.length) - recsLen (rest.take (fitCount rest (n - (2 + c.length)))) := by
            omega
          rw [this]
          exact h
        · right
          rw [recsLen_cons]
          constructor
          · simp [h1]
          · omega
    · simp only [fitCount, if_neg hfit, List.take_zero, List.drop_zero, recsLen,
        List.map_nil, List.sum_nil, Nat.sub_zero, headRoom]
      constructor
      · exact Nat.zero_le _
      · left; omega

theorem getElem?_append_add (l1 l2 : List Nat) (i : Nat) :
    (l1 ++ l2)[l1.length + i]? = l2[i]? := by
  rw [List.getElem?_append_right (by omega)]
  congr 1
  omega

theorem prefix_getElem? {seg l : List Nat} (hp : seg <+: l) {i : Nat}
    (hi : i < seg.length) : l[i]? = seg[i]? := by
  obtain ⟨t, rfl⟩ := hp
  rw [List.getElem?_append_left hi]

/-- A prefix long enough to contain `l1` splits as `l1` plus a prefix of
`l2`. -/
theorem prefix_decomp {seg l1 l2 : List Nat} (hp : seg <+: l1 ++ l2)
    (h : l1.length ≤ seg.length) :
    seg = l1 ++ seg.drop l1.length ∧ seg.drop l1.length <+: l2 := by
  obtain ⟨t, ht⟩ := hp
  have htake : seg.take l1.length = l1 := by
    have h1 : (seg ++ t).take l1.length = seg.take l1.length :=
      List.take_append_of_le_length h
    have h2 : (l1 ++ l2).take l1.length = l1 := by
      rw [List.take_append_of_le_length (le_refl _), List.take_of_length_le (le_refl _)]
    rw [ht, h2] at h1
    exact h1.symm
  constructor
  · conv_lhs => rw [← List.take_append_drop l1.length seg, htake]
  · refine ⟨t, ?_⟩
    have h1 : (seg ++ t).drop l1.length = seg.drop l1.length ++ t :=
      List.drop_append_of_le_length h
    have h2 : (l1 ++ l2).drop l1.length = l2 := by
      rw [List.drop_append_of_le_length (le_refl _), List.drop_length]
      simp
    rw [ht, h2] at h1
    exact h1.symm

/-! ### Branch lemmas for `innerLoop` -/

theorem innerLoop_stop (A : AEAD) (seg : List Nat) (count rs : Nat)
    (h2 : ¬ rs + 2 ≤ seg.length) :
    innerLoop A seg count rs = ([], rs, count, InnerStatus.more) := by
  rw [innerLoop]
  simp [h2]

theorem innerLoop_terminator (A : AEAD) (seg : List Nat) (count rs : Nat)
    (h2 : rs + 2 ≤ seg.length)
    (hb0 : seg[rs]? = some 0) (hb1 : seg[rs + 1]? = some 0) :
    innerLoop A seg count rs = ([DEvent.close], rs, count, InnerStatus.finished) := by
  rw [innerLoop]
  simp [h2, hb0, hb1]

theorem innerLoop_oversize (A : AEAD) (seg : List Nat) (count rs b0 b1 : Nat)
    (h2 : rs + 2 ≤ seg.length)
    (hb0 : seg[rs]? = some b0) (hb1 : seg[rs + 1]? = some b1)
    (hnz : b0 * 256 + b1 ≠ 0) (hsz : maxCiphertextSegmentSize < b0 * 256 + b1) :
    innerLoop A seg count rs =
      ([DEvent.error DErr.segmentTooBig], rs, count, InnerStatus.errored) := by
  rw [innerLoop]
  simp [h2, hb0, hb1, hnz, hsz]

theorem innerLoop_incomplete (A : AEAD) (seg : List Nat) (count rs b0 b1 : Nat)
    (h2 : rs + 2 ≤ seg.length)
    (hb0 : seg[rs]? = some b0) (hb1 : seg[rs + 1]? = some b1)
    (hnz : b0 * 256 + b1 ≠ 0) (hsz : ¬ maxCiphertextSegmentSize < b0 * 256 + b1)
    (hinc : seg.length < rs + 2 + (b0 * 256 + b1)) :
    innerLoop A seg count rs = ([], rs, count, InnerStatus.more) := by
  rw [innerLoop]
  simp [h2, hb0, hb1, hnz, hsz, hinc]

theorem innerLoop_record (A : AEAD) (seg : List Nat) (count rs b0 b1 : Nat)
    (p : List Nat)
    (h2 : rs + 2 ≤ seg.length)
    (hb0 : seg[rs]? = some b0) (hb1 : seg[rs + 1]? = some b1)
    (hnz : b0 * 256 + b1 ≠ 0) (hsz : ¬ maxCiphertextSegmentSize < b0 * 256 + b1)
    (hcomp : ¬ seg.length < rs + 2 + (b0 * 256 + b1))
    (hdec : A.dec count ((seg.drop (rs + 2)).take (b0 * 256 + b1)) = some p) :
    innerLoop A seg count rs =
      (DEvent.enqueue p :: (innerLoop A seg (count + 1) (rs + 2 + (b0 * 256 + b1))).1,
       (innerLoop A seg (count + 1) (rs + 2 + (b0 * 256 + b1))).2) := by
  rw [innerLoop]
  simp [h2, hb0, hb1, hnz, hsz, hcomp, hdec]

/-- Big-endian 16-bit round trip for record lengths. -/
theorem be16_roundtrip (n : Nat) (h : n < 65536) :
    (n / 256) % 256 * 256 + n % 256 = n := by
  omega

/-- Specification of the inner decrypt loop: scanning the valid region
`pre ++ seg` from position `pre.length`, where `seg` is a prefix of the
wire form of the remaining records `cts`, the loop decrypts exactly the
records that are wholly present (`fitCount cts seg.length` of them) with
consecutive counters, advances past their framed bytes, and finishes
(closing the stream) exactly when the records and the terminator are all
present. -/
theorem innerLoop_spec (A : AEAD) :
    ∀ (cts plains : List (List Nat)) (count : Nat) (pre seg : List Nat),
    goodCts cts →
    decList A count cts = some plains →
    seg <+: wireRecords cts →
    innerLoop A (pre ++ seg) count pre.length =
      ((plains.take (fitCount cts seg.length)).map DEvent.enqueue ++
         (if fitCount cts seg.length = cts.length ∧ seg.length = recsLen cts + 2
          then [DEvent.close] else []),
       pre.length + recsLen (cts.take (fitCount cts seg.length)),
       count + fitCount cts seg.length,
       if fitCount cts seg.length = cts.length ∧ seg.length = recsLen cts + 2
       then InnerStatus.finished else InnerStatus.more) := by
  intro cts
  induction cts with
  | nil =>
    intro plains count pre seg hg hd hp
    have hpl : plains = [] := by
      simp [decList] at hd
      exact hd
    subst hpl
    have hlen2 : seg.length ≤ 2 := by
      have := hp.length_le
      simpa [wireRecords] using this
    by_cases h2 : 2 ≤ seg.length
    · have hseq : seg = [0, 0] := by
        have : seg.length = 2 := by omega
        exact hp.eq_of_length (by simpa [wireRecords] using this)
      subst hseq
      rw [innerLoop_terminator A _ count pre.length
        (by simp) (by simpa using getElem?_append_add pre [0, 0] 0)
        (by simpa using getElem?_append_add pre [0, 0] 1)]
      have hcond : fitCount [] ([0, 0] : List Nat).length = ([] : List (List Nat)).length ∧
          ([0, 0] : List Nat).length = recsLen [] + 2 := by
        constructor <;> rfl
      rw [if_pos hcond, if_pos hcond]
      simp [fitCount, recsLen]
    · rw [innerLoop_stop A _ count pre.length (by simp; omega)]
      have hcond : ¬ (fitCount [] seg.length = ([] : List (List Nat)).length ∧
          seg.length = recsLen [] + 2) := by
        rintro ⟨-, h⟩
        simp [recsLen] at h
        omega
      rw [if_neg hcond, if_neg hcond]
      simp [fitCount, recsLen]
  | cons c rest ih =>
    intro plains count pre seg hg hd hp
    obtain ⟨p, plains', hdc, hdr, rfl⟩ := decList_cons A count c rest plains hd
    obtain ⟨hcpos, hcle⟩ := hg c (List.mem_cons_self _ _)
    have hg' : goodCts rest := fun ct hct => hg ct (List.mem_cons_of_mem _ hct)
    rw [wireRecords_cons] at hp
    have hmc : maxCiphertextSegmentSize = 10256 := rfl
    by_cases h2 : 2 ≤ seg.length
    · -- the two prefix bytes of `record c` are visible in `seg`
      have hb0 : seg[0]? = some ((c.length / 256) % 256) := by
        rw [← prefix_getElem? hp (by omega)]
        simp [record]
      have hb1 : seg[1]? = some (c.length % 256) := by
        rw [← prefix_getElem? hp (by omega)]
        simp [record]
      have hb0' : (pre ++ seg)[pre.length]? = some ((c.length / 256) % 256) := by
        have h0 := getElem?_append_add pre seg 0
        simp only [Nat.add_zero] at h0
        rw [h0, hb0]
      have hb1' : (pre ++ seg)[pre.length + 1]? = some (c.length % 256) := by
        rw [getElem?_append_add pre seg 1, hb1]
      have hsize : (c.length / 256) % 256 * 256 + c.length % 256 = c.length :=
        be16_roundtrip c.length (by omega)
      have hnz : (c.length / 256) % 256 * 256 + c.length % 256 ≠ 0 := by omega
      have hsz : ¬ maxCiphertextSegmentSize < (c.length / 256) % 256 * 256 + c.length % 256 := by
        omega
      by_cases h3 : seg.length < 2 + c.length
      · -- partial record: wait for more input
        rw [innerLoop_incomplete A (pre ++ seg) count pre.length _ _
          (by simp only [List.length_append]; omega) hb0' hb1' hnz hsz
          (by simp only [List.length_append]; omega)]
        have hfit : fitCount (c :: rest) seg.length = 0 := by
          simp only [fitCount, if_neg (by omega : ¬ 2 + c.length ≤ seg.length)]
        rw [hfit]
        have hcond : ¬ ((0 : Nat) = (c :: rest).length ∧
            seg.length = recsLen (c :: rest) + 2) := by
          rintro ⟨hcl, -⟩
          simp at hcl
        rw [if_neg hcond, if_neg hcond]
        simp [recsLen]
      · -- a whole record is present: decrypt it and recurse
        push_neg at h3
        have hrl : (record c).length = 2 + c.length := record_length c
        obtain ⟨hsegd, hp₂⟩ := prefix_decomp hp (by omega)
        have hseg₂len : seg.length = (2 + c.length) + (seg.drop (record c).length).length := by
          conv_lhs => rw [hsegd]
          simp [record_length]
        have hext : ((pre ++ seg).drop (pre.length + 2)).take
            ((c.length / 256) % 256 * 256 + c.length % 256) = c := by
          rw [hsize, List.drop_append 2]
          have hdrop2 : seg.drop 2 = c ++ seg.drop (record c).length := by
            conv_lhs => rw [hsegd]
            simp [record]
          rw [hdrop2, List.take_left]
        have hdec' : A.dec count (((pre ++ seg).drop (pre.length + 2)).take
            ((c.length / 256) % 256 * 256 + c.length % 256)) = some p := by
          rw [hext]; exact hdc
        rw [innerLoop_record A (pre ++ seg) count pre.length _ _ p
          (by simp only [List.length_append]; omega) hb0' hb1' hnz hsz
          (by simp only [List.length_append]; omega) hdec']
        have hps : pre ++ seg = (pre ++ record c) ++ seg.drop (record c).length := by
          rw [List.append_assoc, ← hsegd]
        have hrs : pre.length + 2 + ((c.length / 256) % 256 * 256 + c.length % 256) =
            (pre ++ record c).length := by
          simp only [List.length_append, record_length]
          omega
        rw [hps, hrs, ih plains' (count + 1) (pre ++ record c)
          (seg.drop (record c).length) hg' hdr hp₂]
        have hfit : fitCount (c :: rest) seg.length =
            fitCount rest (seg.drop (record c).length).length + 1 := by
          simp only [fitCount, if_pos (by omega : 2 + c.length ≤ seg.length)]
          have : seg.length - (2 + c.length) = (seg.drop (record c).length).length := by
            omega
          rw [this]
        have hcond : (fitCount rest (seg.drop (record c).length).length + 1 =
                (c :: rest).length ∧
              seg.length = recsLen (c :: rest) + 2) ↔
            (fitCount rest (seg.drop (record c).length).length = rest.length ∧
              (seg.drop (record c).length).length = recsLen rest + 2) := by
          rw [recsLen_cons]
          simp only [List.length_cons]
          omega
        rw [hfit]
        simp only [hcond]
        simp only [List.take_succ_cons, List.map_cons, List.cons_append,
          recsLen_cons, Prod.mk.injEq]
        refine ⟨?_, ?_, ?_, ?_⟩
        · trivial
        · simp only [List.length_append, record_length]
          omega
        · omega
        · trivial
    · -- fewer than 2 bytes: nothing to do yet
      rw [innerLoop_stop A (pre ++ seg) count pre.length
        (by simp only [List.length_append]; omega)]
      have hfit : fitCount (c :: rest) seg.length = 0 := by
        simp only [fitCount, if_neg (by omega : ¬ 2 + c.length ≤ seg.length)]
      rw [hfit]
      have hcond : ¬ ((0 : Nat) = (c :: rest).length ∧
          seg.length = recsLen (c :: rest) + 2) := by
        rintro ⟨hcl, -⟩
        simp at hcl
      rw [if_neg hcond, if_neg hcond]
      simp [recsLen]

/-- `innerLoop_spec` at read position 0 (empty prefix). -/
theorem innerLoop_spec0 (A : AEAD) (cts plains : List (List Nat)) (count : Nat)
    (seg : List Nat) (hg : goodCts cts) (hd : decList A count cts = some plains)
    (hp : seg <+: wireRecords cts) :
    innerLoop A seg count 0 =
      ((plains.take (fitCount cts seg.length)).map DEvent.enqueue ++
         (if fitCount cts seg.length = cts.length ∧ seg.length = recsLen cts + 2
          then [DEvent.close] else []),
       recsLen (cts.take (fitCount cts seg.length)),
       count + fitCount cts seg.length,
       if fitCount cts seg.length = cts.length ∧ seg.length = recsLen cts + 2
       then InnerStatus.finished else InnerStatus.more) := by
  have := innerLoop_spec A cts plains count [] seg hg hd hp
  simpa using this

theorem fitCount_zero_of_lt (cts : List (List Nat)) (n : Nat)
    (h : n < headRoom cts) : fitCount cts n = 0 := by
  cases cts with
  | nil => rfl
  | cons c rest =>
    simp only [headRoom] at h
    have hnot : ¬ 2 + c.length ≤ n := by omega
    simp only [fitCount, if_neg hnot]

theorem recsLen_append (l₁ l₂ : List (List Nat)) :
    recsLen (l₁ ++ l₂) = recsLen l₁ + recsLen l₂ := by
  simp [recsLen]

theorem recsLen_take_drop (cts : List (List Nat)) (m : Nat) :
    recsLen cts = recsLen (cts.take m) + recsLen (cts.drop m) := by
  rw [← recsLen_append, List.take_append_drop]

theorem flat_record_length (l : List (List Nat)) :
    ((l.map record).flatten).length = recsLen l := by
  induction l with
  | nil => rfl
  | cons c rest ih =>
    simp only [List.map_cons, List.flatten_cons, List.length_append, ih, record_length,
      recsLen_cons]

theorem wireRecords_split (cts : List (List Nat)) (m : Nat) :
    wireRecords cts = ((cts.take m).map record).flatten ++ wireRecords (cts.drop m) := by
  simp only [wireRecords]
  rw [← List.append_assoc, ← List.flatten_append, ← List.map_append, List.take_append_drop]

theorem headRoom_le_scratch (cts : List (List Nat)) (hg : goodCts cts) :
    headRoom cts ≤ scratchSize := by
  cases cts with
  | nil => norm_num [headRoom, scratchSize, maxCiphertextSegmentSize, maxPlaintextSegmentSize]
  | cons c rest =>
    have := (hg c (List.mem_cons_self _ _)).2
    simp only [headRoom, scratchSize]
    omega

/-! ### Branch lemmas for `dbaeLoop` -/

theorem dbaeLoop_stop (A : AEAD) (buffer : List Nat) (brs : Nat) (st : DState)
    (hb : ¬ brs < buffer.length) :
    dbaeLoop A buffer brs st = ([], st) := by
  rw [dbaeLoop]
  simp [hb]

theorem dbaeLoop_zeroCopy (A : AEAD) (buffer : List Nat) (brs : Nat) (st : DState)
    (hb : brs < buffer.length)
    (hc : min (scratchSize - st.seg.length) (buffer.length - brs) = 0) :
    dbaeLoop A buffer brs st = ([DEvent.error DErr.copiedZero], st) := by
  rw [dbaeLoop]
  simp [hb, hc]

theorem dbaeLoop_cont (A : AEAD) (buffer : List Nat) (brs : Nat) (st : DState)
    (evs : List DEvent) (rs' count' : Nat) (status : InnerStatus)
    (hb : brs < buffer.length)
    (hc : ¬ min (scratchSize - st.seg.length) (buffer.length - brs) = 0)
    (hin : innerLoop A
        (st.seg ++ (buffer.drop brs).take
          (min (scratchSize - st.seg.length) (buffer.length - brs)))
        st.count 0 = (evs, rs', count', status))
    (hst : status ≠ InnerStatus.threw) :
    dbaeLoop A buffer brs st =
      (evs ++ (dbaeLoop A buffer
          (brs + min (scratchSize - st.seg.length) (buffer.length - brs))
          ⟨(st.seg ++ (buffer.drop brs).take
              (min (scratchSize - st.seg.length) (buffer.length - brs))).drop rs',
           count', st.isFinished || (status == InnerStatus.finished)⟩).1,
       (dbaeLoop A buffer
          (brs + min (scratchSize - st.seg.length) (buffer.length - brs))
          ⟨(st.seg ++ (buffer.drop brs).take
              (min (scratchSize - st.seg.length) (buffer.length - brs))).drop rs',
           count', st.isFinished || (status == InnerStatus.finished)⟩).2) := by
  have hset : ¬ scratchSize <
      st.seg.length + min (scratchSize - st.seg.length) (buffer.length - brs) := by
    omega
  rw [dbaeLoop]
  rw [dif_pos hb, dif_neg hc, dif_neg hset, hin]
  cases status with
  | more => rfl
  | finished => rfl
  | errored => rfl
  | threw => exact absurd rfl hst

/-- Specification of `decryptBufferAndEnqueue` on a well-formed stream:
starting from a between-feeds state (`Partial seg cts`, counter aligned),
feeding the portion of `buffer` from `brs` (an arbitrary continuation of
the wire), the loop enqueues exactly the decryptions of the records that
are now wholly delivered, closes the stream exactly if the delivered bytes
reach the terminator, and leaves the scratch holding the undecoded
remainder. -/
theorem dbaeLoop_spec (A : AEAD) (buffer : List Nat) :
    ∀ (fuel brs : Nat) (cts plains : List (List Nat)) (count : Nat) (seg : List Nat),
    buffer.length - brs ≤ fuel →
    goodCts cts →
    decList A count cts = some plains →
    Partial seg cts →
    (seg ++ buffer.drop brs) <+: wireRecords cts →
    dbaeLoop A buffer brs ⟨seg, count, false⟩ =
      ((plains.take (fitCount cts (seg ++ buffer.drop brs).length)).map DEvent.enqueue ++
         (if fitCount cts (seg ++ buffer.drop brs).length = cts.length ∧
             (seg ++ buffer.drop brs).length = recsLen cts + 2
          then [DEvent.close] else []),
       ⟨(seg ++ buffer.drop brs).drop
          (recsLen (cts.take (fitCount cts (seg ++ buffer.drop brs).length))),
        count + fitCount cts (seg ++ buffer.drop brs).length,
        if fitCount cts (seg ++ buffer.drop brs).length = cts.length ∧
            (seg ++ buffer.drop brs).length = recsLen cts + 2
        then true else false⟩) := by
  intro fuel
  induction fuel with
  | zero =>
    intro brs cts plains count seg hfuel hg hd hpart hpre
    have hble : buffer.length ≤ brs := by omega
    have hdropnil : buffer.drop brs = [] := List.drop_eq_nil_of_le hble
    rw [dbaeLoop_stop A buffer brs _ (by omega)]
    rw [hdropnil, List.append_nil]
    have hfit : fitCount cts seg.length = 0 := fitCount_zero_of_lt cts seg.length hpart.2
    rw [hfit]
    have hcond : ¬ ((0 : Nat) = cts.length ∧ seg.length = recsLen cts + 2) := by
      rintro ⟨h1, h2⟩
      rcases cts with _ | ⟨c, rest⟩
      · have hh := hpart.2
        simp only [headRoom] at hh
        simp only [recsLen, List.map_nil, List.sum_nil] at h2
        omega
      · simp at h1
    rw [if_neg hcond, if_neg hcond]
    simp [recsLen]
  | succ fuel ih =>
    intro brs cts plains count seg hfuel hg hd hpart hpre
    by_cases hb : brs < buffer.length
    case neg =>
      have hdropnil : buffer.drop brs = [] := List.drop_eq_nil_of_le (by omega)
      rw [dbaeLoop_stop A buffer brs _ hb]
      rw [hdropnil, List.append_nil]
      have hfit : fitCount cts seg.length = 0 := fitCount_zero_of_lt cts seg.length hpart.2
      rw [hfit]
      have hcond : ¬ ((0 : Nat) = cts.length ∧ seg.length = recsLen cts + 2) := by
        rintro ⟨h1, h2⟩
        rcases cts with _ | ⟨c, rest⟩
        · have hh := hpart.2
          simp only [headRoom] at hh
          simp only [recsLen, List.map_nil, List.sum_nil] at h2
          omega
        · simp at h1
      rw [if_neg hcond, if_neg hcond]
      simp [recsLen]
    case pos =>
      obtain ⟨hpseg, hplen⟩ := hpart
      have hroom : headRoom cts ≤ scratchSize := headRoom_le_scratch cts hg
      have hss : scratchSize = 10258 := rfl
      have hL1 : 1 ≤ min (scratchSize - seg.length) (buffer.length - brs) := by omega
      set L := min (scratchSize - seg.length) (buffer.length - brs) with hLdef
      have hLle : L ≤ buffer.length - brs := Nat.min_le_right _ _
      have hdlen : (buffer.drop brs).length = buffer.length - brs := List.length_drop _ _
      have htklen : ((buffer.drop brs).take L).length = L := by
        rw [List.length_take, hdlen]
        omega
      have htot : (seg ++ (buffer.drop brs).take L) ++ buffer.drop (brs + L) =
          seg ++ buffer.drop brs := by
        rw [List.append_assoc]
        congr 1
        have hdd : buffer.drop (brs + L) = (buffer.drop brs).drop L := by
          rw [List.drop_drop, Nat.add_comm]
        rw [hdd, List.take_append_drop]
      have hp' : (seg ++ (buffer.drop brs).take L) <+: wireRecords cts := by
        refine List.IsPrefix.trans ?_ hpre
        exact ⟨buffer.drop (brs + L), htot⟩
      have hseg'len : (seg ++ (buffer.drop brs).take L).length = seg.length + L := by
        rw [List.length_append, htklen]
      have hinner := innerLoop_spec0 A cts plains count _ hg hd hp'
      have hseg'wire : (seg ++ (buffer.drop brs).take L).length ≤ recsLen cts + 2 := by
        have := hp'.length_le
        rwa [wireRecords_length] at this
      by_cases hfull : fitCount cts (seg ++ (buffer.drop brs).take L).length = cts.length ∧
          (seg ++ (buffer.drop brs).take L).length = recsLen cts + 2
      · -- this copy completes the records and the terminator
        rw [if_pos hfull, if_pos hfull] at hinner
        have hrest0 : buffer.drop (brs + L) = [] := by
          have h1 : (seg ++ buffer.drop brs).length ≤ recsLen cts + 2 := by
            have := hpre.length_le
            rwa [wireRecords_length] at this
          have h2 := congrArg List.length htot
          have h3 : (seg ++ (buffer.drop brs).take L).length = recsLen cts + 2 := hfull.2
          apply List.eq_nil_of_length_eq_zero
          simp only [List.length_append] at h1 h2 h3
          omega
        have htoteq : seg ++ buffer.drop brs = seg ++ (buffer.drop brs).take L := by
          rw [← htot, hrest0, List.append_nil]
        rw [dbaeLoop_cont A buffer brs _ _ _ _ _ hb
          (by show ¬ min (scratchSize - seg.length) (buffer.length - brs) = 0; omega)
          hinner (by simp)]
        rw [dbaeLoop_stop A buffer _ _ (by
          show ¬ brs + min (scratchSize - seg.length) (buffer.length - brs) < buffer.length
          have h2 := congrArg List.length hrest0
          simp only [List.length_drop, List.length_nil] at h2
          omega)]
        rw [htoteq, if_pos hfull, if_pos hfull]
        simp
      · -- partial progress: recurse on the rest of the buffer
        rw [if_neg hfull, if_neg hfull] at hinner
        set m₁ := fitCount cts (seg ++ (buffer.drop brs).take L).length with hm₁
        set r₁ := recsLen (cts.take m₁) with hr₁
        have hm₁le : m₁ ≤ cts.length := fitCount_le_length _ _
        obtain ⟨hr₁le, hres⟩ := fitCount_residual cts _ hseg'wire
        rw [← hm₁, ← hr₁] at hr₁le hres
        have hres2 : (seg ++ (buffer.drop brs).take L).length - r₁ <
            headRoom (cts.drop m₁) := by
          rcases hres with h | h
          · exact h
          · exact absurd h hfull
        -- split the wire at the consumed records
        have hflatlen : (((cts.take m₁).map record).flatten).length = r₁ :=
          flat_record_length _
        have hsplit := wireRecords_split cts m₁
        have hp'split : (seg ++ (buffer.drop brs).take L) <+:
            ((cts.take m₁).map record).flatten ++ wireRecords (cts.drop m₁) := by
          rw [← hsplit]; exact hp'
        have hr₁seg : r₁ ≤ (seg ++ (buffer.drop brs).take L).length := hr₁le
        obtain ⟨-, hp₂⟩ := prefix_decomp hp'split (by rw [hflatlen]; exact hr₁seg)
        rw [hflatlen] at hp₂
        -- the new scratch is the old total minus the consumed records
        have hpretot : (seg ++ buffer.drop brs) <+:
            ((cts.take m₁).map record).flatten ++ wireRecords (cts.drop m₁) := by
          rw [← hsplit]; exact hpre
        have hr₁tot : r₁ ≤ (seg ++ buffer.drop brs).length := by
          have : (seg ++ (buffer.drop brs).take L).length ≤
              (seg ++ buffer.drop brs).length := by
            simp only [List.length_append, htklen]
            omega
          omega
        obtain ⟨-, hp₂tot⟩ := prefix_decomp hpretot (by rw [hflatlen]; exact hr₁tot)
        rw [hflatlen] at hp₂tot
        have hnewseg : ((seg ++ (buffer.drop brs).take L).drop r₁) ++
            buffer.drop (brs + L) = (seg ++ buffer.drop brs).drop r₁ := by
          conv_rhs => rw [← htot]
          rw [List.drop_append_of_le_length hr₁seg]
        have hpartial' : Partial ((seg ++ (buffer.drop brs).take L).drop r₁)
            (cts.drop m₁) := by
          refine ⟨hp₂, ?_⟩
          rw [List.length_drop]
          exact hres2
        have hd' : decList A (count + m₁) (cts.drop m₁) = some (plains.drop m₁) :=
          decList_drop A m₁ cts count plains hd
        have hpre' : ((seg ++ (buffer.drop brs).take L).drop r₁) ++
            buffer.drop (brs + L) <+: wireRecords (cts.drop m₁) := by
          rw [hnewseg]; exact hp₂tot
        have hfuel' : buffer.length - (brs + L) ≤ fuel := by omega
        have hrec := ih (brs + L) (cts.drop m₁) (plains.drop m₁) (count + m₁)
          ((seg ++ (buffer.drop brs).take L).drop r₁) hfuel' (goodCts_drop cts m₁ hg)
          hd' hpartial' hpre'
        rw [dbaeLoop_cont A buffer brs _ _ _ _ _ hb
          (by show ¬ min (scratchSize - seg.length) (buffer.length - brs) = 0; omega)
          hinner (by simp)]
        rw [← hLdef]
        have hbeqF : (false || (InnerStatus.more == InnerStatus.finished)) = false := rfl
        rw [hbeqF, hrec, hnewseg]
        -- arithmetic to fold the two stages into one
        set n := (seg ++ buffer.drop brs).length with hn
        have hnlen : ((seg ++ buffer.drop brs).drop r₁).length = n - r₁ := by
          rw [List.length_drop]
        have hnwire : n ≤ recsLen cts + 2 := by
          have := hpre.length_le
          rwa [wireRecords_length] at this
        have hsplitfit : fitCount cts n = m₁ +
            fitCount (cts.drop m₁) (n - r₁) :=
          fitCount_split m₁ cts n hm₁le hr₁tot
        set m₂ := fitCount (cts.drop m₁) (n - r₁) with hm₂
        rw [hnlen, ← hm₂]
        have hrecsSplit : recsLen cts = r₁ + recsLen (cts.drop m₁) := by
          rw [hr₁]; exact recsLen_take_drop cts m₁
        have hdroplen : (cts.drop m₁).length = cts.length - m₁ := List.length_drop _ _
        have hcondIff : (m₂ = (cts.drop m₁).length ∧ n - r₁ = recsLen (cts.drop m₁) + 2) ↔
            (fitCount cts n = cts.length ∧ n = recsLen cts + 2) := by
          rw [hsplitfit]
          omega
        have htakeAdd : plains.take (m₁ + m₂) =
            plains.take m₁ ++ (plains.drop m₁).take m₂ := List.take_add plains m₁ m₂
        have hrecsTakeAdd : recsLen (cts.take (m₁ + m₂)) =
            r₁ + recsLen ((cts.drop m₁).take m₂) := by
          rw [List.take_add, recsLen_append, hr₁]
        rw [hsplitfit, htakeAdd, hrecsTakeAdd]
        simp only [hcondIff, hsplitfit]
        simp only [List.map_append, List.append_assoc, List.drop_drop, Prod.mk.injEq]
        refine ⟨?_, ?_⟩
        · simp
        · have hcc : count + m₁ + m₂ = count + (m₁ + m₂) := by omega
          rw [hcc]

theorem headRoom_le_wire (cts : List (List Nat)) : headRoom cts ≤ recsLen cts + 2 := by
  cases cts with
  | nil => simp [headRoom, recsLen]
  | cons c rest =>
    simp only [headRoom, recsLen_cons]
    omega

theorem wire_drop_recsLen (cts : List (List Nat)) :
    (wireRecords cts).drop (recsLen cts) = [0, 0] := by
  have h := flat_record_length cts
  simp only [wireRecords]
  rw [← h, List.drop_append_of_le_length (le_refl _), List.drop_length]
  simp

/-- Feeding only empty buffers does nothing (`bufferReadStart < 0` is
false immediately). -/
theorem feedAll_empties (A : AEAD) :
    ∀ (bufs : List (List Nat)) (st : DState), (∀ b ∈ bufs, b = []) →
    feedAll A bufs st = ([], st) := by
  intro bufs
  induction bufs with
  | nil => intro st _; rfl
  | cons b rest ih =>
    intro st hall
    have hb : b = [] := hall b (List.mem_cons_self _ _)
    subst hb
    have hstep : dbae A [] st = ([], st) := by
      rw [dbae, dbaeLoop_stop]
      simp
    simp only [feedAll, hstep]
    rw [ih st (fun b hb => hall b (List.mem_cons_of_mem _ hb))]
    rfl

/-- Specification of the whole content phase: feeding any partition of the
remaining wire from a between-feeds state decrypts every remaining record
in order, closes the stream once, and leaves the terminator bytes in the
scratch. -/
theorem feedAll_spec (A : AEAD) :
    ∀ (bufs : List (List Nat)) (cts plains : List (List Nat)) (count : Nat)
      (seg : List Nat),
    goodCts cts →
    decList A count cts = some plains →
    Partial seg cts →
    seg ++ bufs.flatten = wireRecords cts →
    feedAll A bufs ⟨seg, count, false⟩ =
      (plains.map DEvent.enqueue ++ [DEvent.close],
       ⟨[0, 0], count + cts.length, true⟩) := by
  intro bufs
  induction bufs with
  | nil =>
    intro cts plains count seg hg hd hpart hflat
    exfalso
    have hlen := congrArg List.length hflat
    simp only [List.flatten_nil, List.append_nil, wireRecords_length] at hlen
    have h1 := hpart.2
    have h2 := headRoom_le_wire cts
    omega
  | cons b rest ih =>
    intro cts plains count seg hg hd hpart hflat
    have hflat' : seg ++ (b ++ rest.flatten) = wireRecords cts := by
      simpa using hflat
    have hpre : (seg ++ b) <+: wireRecords cts := by
      refine ⟨rest.flatten, ?_⟩
      rw [← hflat', List.append_assoc]
    have hspec := dbaeLoop_spec A b b.length 0 cts plains count seg (by omega)
      hg hd hpart (by simpa using hpre)
    simp only [List.drop_zero] at hspec
    have hdbae : dbae A b ⟨seg, count, false⟩ = _ := hspec
    by_cases hfull : fitCount cts (seg ++ b).length = cts.length ∧
        (seg ++ b).length = recsLen cts + 2
    · -- this buffer completes the wire; the rest must be empty
      rw [if_pos hfull, if_pos hfull] at hdbae
      have hresteq : rest.flatten = [] := by
        have h1 := congrArg List.length hflat'
        simp only [List.length_append, wireRecords_length] at h1
        have h2 := hfull.2
        simp only [List.length_append] at h2
        have : rest.flatten.length = 0 := by omega
        exact List.eq_nil_of_length_eq_zero this
      have hteq : seg ++ b = wireRecords cts := by
        rw [← hflat', hresteq, List.append_nil]
      have hplen : plains.length = cts.length := decList_length A cts count plains hd
      simp only [feedAll]
      rw [hdbae]
      rw [feedAll_empties A rest _ (List.flatten_eq_nil_iff.mp hresteq)]
      rw [hfull.1]
      have h1 : List.take cts.length plains = plains := by
        rw [← hplen]
        exact List.take_length plains
      have h2 : List.take cts.length cts = cts := List.take_length cts
      rw [h1, h2, hteq, wire_drop_recsLen]
      simp
    · -- partial progress; recurse on the remaining buffers
      rw [if_neg hfull, if_neg hfull] at hdbae
      set m₁ := fitCount cts (seg ++ b).length with hm₁
      set r₁ := recsLen (cts.take m₁) with hr₁
      have hm₁le : m₁ ≤ cts.length := fitCount_le_length _ _
      have hwlen : (seg ++ b).length ≤ recsLen cts + 2 := by
        have := hpre.length_le
        rwa [wireRecords_length] at this
      obtain ⟨hr₁le, hres⟩ := fitCount_residual cts _ hwlen
      have hres2 : (seg ++ b).length - r₁ < headRoom (cts.drop m₁) := by
        rcases hres with h | h
        · exact h
        · exact absurd h hfull
      have hflatlen : (((cts.take m₁).map record).flatten).length = r₁ :=
        flat_record_length _
      have hsplit := wireRecords_split cts m₁
      have hp'split : (seg ++ b) <+:
          ((cts.take m₁).map record).flatten ++ wireRecords (cts.drop m₁) := by
        rw [← hsplit]; exact hpre
      obtain ⟨-, hp₂⟩ := prefix_decomp hp'split (by rw [hflatlen]; exact hr₁le)
      rw [hflatlen] at hp₂
      have hpartial' : Partial ((seg ++ b).drop r₁) (cts.drop m₁) := by
        refine ⟨hp₂, ?_⟩
        rw [List.length_drop]
        exact hres2
      have hd' : decList A (count + m₁) (cts.drop m₁) = some (plains.drop m₁) :=
        decList_drop A m₁ cts count plains hd
      have hflatrec : ((seg ++ b).drop r₁) ++ rest.flatten =
          wireRecords (cts.drop m₁) := by
        have h1 : (seg ++ b) ++ rest.flatten = wireRecords cts := by
          rw [← hflat', List.append_assoc]
        have h2 : ((seg ++ b) ++ rest.flatten).drop r₁ =
            ((seg ++ b).drop r₁) ++ rest.flatten :=
          List.drop_append_of_le_length hr₁le
        rw [← h2, h1, hsplit, ← hflatlen, List.drop_append_of_le_length (le_refl _),
          List.drop_length]
        simp
      have hrec := ih (cts.drop m₁) (plains.drop m₁) (count + m₁) ((seg ++ b).drop r₁)
        (goodCts_drop cts m₁ hg) hd' hpartial' hflatrec
      simp only [feedAll]
      rw [hdbae, hrec]
      have hlen : (cts.drop m₁).length = cts.length - m₁ := List.length_drop _ _
      have hcount : count + m₁ + (cts.drop m₁).length = count + cts.length := by
        rw [hlen]; omega
      rw [hcount]
      simp only [List.append_nil]
      rw [← List.append_assoc, ← List.map_append, List.take_append_drop]

/-! ### The header phase (`sizedRead` / `readChunk`) -/

theorem sizedRead_spec :
    ∀ (bufs : List (List Nat)) (acc : List Nat) (size : Nat),
    size ≤ (acc ++ bufs.flatten).length →
    ∃ acc' bufs', sizedRead bufs acc size = some (acc', bufs') ∧
      acc' ++ bufs'.flatten = acc ++ bufs.flatten ∧ size ≤ acc'.length := by
  intro bufs
  induction bufs with
  | nil =>
    intro acc size h
    simp only [List.flatten_nil, List.append_nil] at h
    exact ⟨acc, [], by rw [sizedRead, if_pos h], by simp, h⟩
  | cons b rest ih =>
    intro acc size h
    by_cases hle : size ≤ acc.length
    · exact ⟨acc, b :: rest, by rw [sizedRead, if_pos hle], rfl, hle⟩
    · have h' : size ≤ ((acc ++ b) ++ rest.flatten).length := by
        simp only [List.flatten_cons, List.length_append] at h ⊢
        omega
      obtain ⟨acc', bufs', h1, h2, h3⟩ := ih (acc ++ b) size h'
      refine ⟨acc', bufs', ?_, ?_, h3⟩
      · rw [sizedRead, if_neg hle]
        exact h1
      · rw [h2]
        simp [List.append_assoc]

theorem readChunk_ok (bufs : List (List Nat)) (acc : List Nat) (maxLen : Nat)
    (c rest : List Nat)
    (hstream : acc ++ bufs.flatten = record c ++ rest)
    (hle : c.length ≤ maxLen) (hlt : c.length < 65536) :
    ∃ leftover bufs', readChunk bufs acc maxLen = Except.ok (c, leftover, bufs') ∧
      leftover ++ bufs'.flatten = rest := by
  have htotlen : (acc ++ bufs.flatten).length = 2 + c.length + rest.length := by
    rw [hstream]
    simp only [List.length_append, record_length]
  obtain ⟨acc1, bufs1, hsr1, hflat1, hlen1⟩ := sizedRead_spec bufs acc 2 (by omega)
  have hpre1 : acc1 <+: record c ++ rest := ⟨bufs1.flatten, by rw [hflat1, hstream]⟩
  have hb0 : acc1[0]? = some ((c.length / 256) % 256) := by
    rw [← prefix_getElem? hpre1 (by omega)]
    simp [record]
  have hb1 : acc1[1]? = some (c.length % 256) := by
    rw [← prefix_getElem? hpre1 (by omega)]
    simp [record]
  have hgd0 : acc1.getD 0 0 = (c.length / 256) % 256 := by
    rw [List.getD_eq_getElem?_getD, hb0]
    rfl
  have hgd1 : acc1.getD 1 0 = c.length % 256 := by
    rw [List.getD_eq_getElem?_getD, hb1]
    rfl
  have hsize : acc1.getD 0 0 * 256 + acc1.getD 1 0 = c.length := by
    rw [hgd0, hgd1]
    exact be16_roundtrip c.length hlt
  have hdrop : acc1.drop 2 ++ bufs1.flatten = c ++ rest := by
    have h1 : (acc1 ++ bufs1.flatten).drop 2 = acc1.drop 2 ++ bufs1.flatten :=
      List.drop_append_of_le_length hlen1
    rw [← h1, hflat1, hstream]
    simp [record]
  have hclen : c.length ≤ (acc1.drop 2 ++ bufs1.flatten).length := by
    rw [hdrop]
    simp
  obtain ⟨acc2, bufs2, hsr2, hflat2, hlen2⟩ :=
    sizedRead_spec bufs1 (acc1.drop 2) c.length hclen
  rw [hdrop] at hflat2
  have hpre2 : acc2 <+: c ++ rest := ⟨bufs2.flatten, by rw [hflat2]⟩
  obtain ⟨hacc2eq, -⟩ := prefix_decomp hpre2 hlen2
  refine ⟨acc2.drop c.length, bufs2, ?_, ?_⟩
  · simp only [readChunk, hsr1, hsize]
    rw [if_neg (by omega)]
    simp only [hsr2]
    have htk : acc2.take c.length = c := by
      conv_lhs => rw [hacc2eq]
      exact List.take_left c (acc2.drop c.length)
    rw [htk]
  · have h1 : (acc2 ++ bufs2.flatten).drop c.length =
        acc2.drop c.length ++ bufs2.flatten :=
      List.drop_append_of_le_length hlen2
    rw [← h1, hflat2, List.drop_left]

theorem readChunk_tooLong (bufs : List (List Nat)) (acc : List Nat) (maxLen : Nat)
    (b0 b1 : Nat) (restBytes : List Nat)
    (hstream : acc ++ bufs.flatten = b0 :: b1 :: restBytes)
    (hgt : maxLen < b0 * 256 + b1) :
    readChunk bufs acc maxLen = Except.error HdrErr.chunkTooLong := by
  have h2 : (2 : Nat) ≤ (acc ++ bufs.flatten).length := by
    rw [hstream]
    simp
  obtain ⟨acc1, bufs1, hsr1, hflat1, hlen1⟩ := sizedRead_spec bufs acc 2 h2
  have hpre1 : acc1 <+: b0 :: b1 :: restBytes := ⟨bufs1.flatten, by rw [hflat1, hstream]⟩
  have hb0 : acc1[0]? = some b0 := by
    rw [← prefix_getElem? hpre1 (by omega)]
    rfl
  have hb1 : acc1[1]? = some b1 := by
    rw [← prefix_getElem? hpre1 (by omega)]
    simp
  have hgd0 : acc1.getD 0 0 = b0 := by
    rw [List.getD_eq_getElem?_getD, hb0]
    rfl
  have hgd1 : acc1.getD 1 0 = b1 := by
    rw [List.getD_eq_getElem?_getD, hb1]
    rfl
  simp only [readChunk, hsr1, hgd0, hgd1]
  rw [if_pos hgt]

theorem withCounts_mem_snd :
    ∀ (segs : List (List Nat)) (k c : Nat) (s : List Nat),
    (c, s) ∈ withCounts k segs → s ∈ segs := by
  intro segs
  induction segs with
  | nil => intro k c s h; simp [withCounts] at h
  | cons a rest ih =>
    intro k c s h
    simp only [withCounts, List.mem_cons, Prod.mk.injEq] at h
    rcases h with ⟨-, rfl⟩ | h
    · exact List.mem_cons_self _ _
    · exact List.mem_cons_of_mem _ (ih (k + 1) c s h)

/-- The content records produced by the Encryptor decrypt back to the
segments, with counters aligned. -/
theorem decList_withCounts (A : AEAD) :
    ∀ (segs : List (List Nat)) (k : Nat),
    decList A k ((withCounts k segs).map (fun cs => A.enc cs.1 cs.2)) = some segs := by
  intro segs
  induction segs with
  | nil => intro k; rfl
  | cons s rest ih =>
    intro k
    simp only [withCounts, List.map_cons, decList, A.dec_enc, ih]
    rfl

theorem goodCts_withCounts (A : AEAD) (segs : List (List Nat)) (k : Nat)
    (hsegs : ∀ s ∈ segs, s.length ≤ maxPlaintextSegmentSize) :
    goodCts ((withCounts k segs).map (fun cs => A.enc cs.1 cs.2)) := by
  intro ct hct
  simp only [List.mem_map] at hct
  obtain ⟨⟨c, s⟩, hmem, rfl⟩ := hct
  have hs : s ∈ segs := withCounts_mem_snd segs k c s hmem
  have := hsegs s hs
  rw [A.enc_length]
  constructor
  · omega
  · simp only [maxCiphertextSegmentSize]
    omega

theorem headRoom_pos (cts : List (List Nat)) : 0 < headRoom cts := by
  cases cts <;> simp [headRoom]

/-- Full specification of the worker decode pipeline `decryptedStream` on a
well-formed transfer delivered in arbitrary buffers: provided the name and
MIME records respect the decoder's header limits (512 and 272 bytes of
ciphertext), the decoded name/MIME equal the originals, each content
segment is enqueued in order, the stream is closed once, and the state is
marked finished. -/
theorem decryptedStream_spec (A : AEAD) (name mime : List Nat)
    (chunks bufs : List (List Nat))
    (hname : name.length ≤ 496) (hmime : mime.length ≤ 256)
    (hflat : bufs.flatten = encodeTransfer A name mime chunks) :
    decryptedStream A bufs =
      Except.ok ⟨name, mime,
        (plainSegments chunks).map DEvent.enqueue ++ [DEvent.close], true⟩ := by
  have hstream : ([] : List Nat) ++ bufs.flatten =
      record (A.enc 0 name) ++ (record (A.enc 1 mime) ++
        wireRecords ((withCounts 2 (plainSegments chunks)).map
          (fun cs => A.enc cs.1 cs.2))) := by
    rw [List.nil_append, hflat, encodeTransfer, transferRecords, wireRecords_cons,
      wireRecords_cons]
  have hnl : (A.enc 0 name).length = name.length + 16 := A.enc_length 0 name
  have hml : (A.enc 1 mime).length = mime.length + 16 := A.enc_length 1 mime
  obtain ⟨leftover1, bufs1, hrc1, hleft1⟩ := readChunk_ok bufs [] 512 (A.enc 0 name) _
    hstream (by omega) (by omega)
  obtain ⟨leftover2, bufs2, hrc2, hleft2⟩ := readChunk_ok bufs1 leftover1 272
    (A.enc 1 mime) _ hleft1 (by omega) (by omega)
  have hgood : goodCts ((withCounts 2 (plainSegments chunks)).map
      (fun cs => A.enc cs.1 cs.2)) :=
    goodCts_withCounts A _ 2 (plainSegments_length_le chunks)
  have hdec : decList A 2 ((withCounts 2 (plainSegments chunks)).map
      (fun cs => A.enc cs.1 cs.2)) = some (plainSegments chunks) :=
    decList_withCounts A _ 2
  have hpartial : Partial [] ((withCounts 2 (plainSegments chunks)).map
      (fun cs => A.enc cs.1 cs.2)) := by
    refine ⟨List.nil_prefix, ?_⟩
    simpa using headRoom_pos _
  have hfeed := feedAll_spec A (leftover2 :: bufs2) _ (plainSegments chunks) 2 []
    hgood hdec hpartial (by simpa using hleft2)
  simp only [decryptedStream, hrc1, hrc2, A.dec_enc, dInit]
  rw [hfeed]

/-- Enqueue events followed by a close carry exactly the given chunks. -/
theorem outputsOf_enqueues (ps : List (List Nat)) :
    outputsOf (ps.map DEvent.enqueue ++ [DEvent.close]) = ps := by
  induction ps with
  | nil => rfl
  | cons p rest ih =>
    simp only [List.map_cons, List.cons_append, outputsOf, List.filterMap_cons] at ih ⊢
    rw [ih]

theorem errorsOf_enqueues (ps : List (List Nat)) :
    errorsOf (ps.map DEvent.enqueue ++ [DEvent.close]) = [] := by
  induction ps with
  | nil => rfl
  | cons p rest ih =>
    simp only [List.map_cons, List.cons_append, errorsOf, List.filterMap_cons] at ih ⊢
    rw [ih]

theorem closesOf_enqueues (ps : List (List Nat)) :
    closesOf (ps.map DEvent.enqueue ++ [DEvent.close]) = 1 := by
  induction ps with
  | nil => rfl
  | cons p rest ih =>
    simp only [List.map_cons, List.cons_append, closesOf, List.filter_cons] at ih ⊢
    simpa using ih

/-! ## Claim theorems -/

/-- **C1** (amended): for every plaintext (delivered to the encryptor in
any source-read chunking `chunks`), every file name of at most 496 bytes
and MIME string of at most 256 bytes (so that their ciphertext records fit
the decoder's 512/272-byte header limits), and every re-chunking `bufs` of
the encrypted wire stream into delivery buffers, the worker decoder
reproduces the original name, MIME and plaintext bytes in order, with no
error and a single close.  (`encodeTransfer` is the wire stream of the
`encryptStream` machine: see `encodeTransfer_eq_machine`.)  The claim as
stated — for *every* name and MIME — is refuted by
`c1_name_over_512_errors`. -/
theorem c1_round_trip_amended (A : AEAD) (name mime : List Nat)
    (chunks bufs : List (List Nat))
    (hname : name.length ≤ 496) (hmime : mime.length ≤ 256)
    (hflat : bufs.flatten = encodeTransfer A name mime chunks) :
    ∃ out : DecodeOut, decryptedStream A bufs = Except.ok out ∧
      out.name = name ∧ out.mime = mime ∧
      (outputsOf out.events).flatten = chunks.flatten ∧
      errorsOf out.events = [] ∧ closesOf out.events = 1 ∧ out.finished = true := by
  refine ⟨_, decryptedStream_spec A name mime chunks bufs hname hmime hflat,
    rfl, rfl, ?_, ?_, ?_, rfl⟩
  · rw [outputsOf_enqueues, plainSegments_flatten]
  · exact errorsOf_enqueues _
  · exact closesOf_enqueues _

/-- Witness for `c1_round_trip_amended` at a concrete transfer. -/
theorem c1_round_trip_amended_witness :
    ([97] : List Nat).length ≤ 496 ∧ ([116, 120] : List Nat).length ≤ 256 ∧
    ([encodeTransfer tagAEAD [97] [116, 120] [[1, 2], [3]]].flatten =
      encodeTransfer tagAEAD [97] [116, 120] [[1, 2], [3]]) ∧
    (∃ out : DecodeOut,
      decryptedStream tagAEAD [encodeTransfer tagAEAD [97] [116, 120] [[1, 2], [3]]] =
        Except.ok out ∧
      out.name = [97] ∧ out.mime = [116, 120] ∧
      (outputsOf out.events).flatten = ([[1, 2], [3]] : List (List Nat)).flatten ∧
      errorsOf out.events = [] ∧ closesOf out.events = 1 ∧ out.finished = true) :=
  ⟨by decide, by decide, by simp,
   c1_round_trip_amended tagAEAD [97] [116, 120] [[1, 2], [3]]
     [encodeTransfer tagAEAD [97] [116, 120] [[1, 2], [3]]]
     (by decide) (by decide) (by simp)⟩

/-- **C1** counterexample: the claim as stated quantifies over *every* file
name, but a 497-byte name encrypts to a 513-byte record, which the worker
decoder's `readChunk(reader, buffer, 512)` rejects with "Chunk too long"
instead of round-tripping. -/
theorem c1_name_over_512_errors :
    decryptedStream tagAEAD
        [encodeTransfer tagAEAD (List.replicate 497 97) [120] []] =
      Except.error HdrErr.chunkTooLong := by
  set_option maxRecDepth 4000 in
  rfl

/-- All segments of a chunk except the last have exactly
`maxPlaintextSegmentSize` bytes. -/
theorem chunkSegs_inner_length (l : List Nat) :
    ∀ i, i + 1 < (chunkSegs l).length →
      ((chunkSegs l).getD i []).length = maxPlaintextSegmentSize := by
  induction l using chunkSegs.induct with
  | case1 l h =>
    intro i hi
    rw [chunkSegs] at hi
    simp [h] at hi
  | case2 l h ih =>
    intro i hi
    rw [chunkSegs] at hi ⊢
    simp only [h, dite_false] at hi ⊢
    cases i with
    | zero =>
      simp only [List.getD_cons_zero, List.length_take]
      omega
    | succ i =>
      simp only [List.getD_cons_succ]
      apply ih
      simpa using hi

/-- **C4** counterexample: delivering the two-byte plaintext `[0, 0]` as two
one-byte source chunks, the encryptor emits two one-byte content segments —
the first segment is not the final one, yet its length is 1, not 10240: the
encryptor does not accumulate bytes across source chunks. -/
theorem c4_segments_not_accumulated :
    (encRun 3 (encInit [[0], [0]])).1 = [(2, [0]), (3, [0])] ∧
    ¬ (∀ i, i + 1 < (encRun 3 (encInit [[0], [0]])).1.length →
        ((encRun 3 (encInit [[0], [0]])).1.getD i (0, [])).2.length =
          maxPlaintextSegmentSize) := by
  constructor
  · decide
  · intro hall
    have h := hall 0 (by decide)
    revert h
    decide

/-- **C4** (amended): the encryptor re-chunks each source chunk
*independently*: (i) the machine emits exactly the segments of
`plainSegments`, counters `2, 3, …`; (ii) within one source chunk, every
segment except the last is exactly 10240 bytes; (iii) the segments of a
chunk concatenate back to the chunk; (iv) a 10240-byte chunk yields one
segment; (v) a 10241-byte chunk yields segments of 10240 and 1 bytes;
(vi) an empty source yields no content segments (only the terminator —
`encRun` closes, emitting it).  The cross-chunk accumulation stated in the
claim does not happen (`c4_segments_not_accumulated`). -/
theorem c4_segmentation_amended :
    (∀ chunks : List (List Nat),
      encRun ((plainSegments chunks).length + 1) (encInit chunks) =
        (withCounts 2 (plainSegments chunks), true)) ∧
    (∀ (l : List Nat) (i : Nat), i + 1 < (chunkSegs l).length →
      ((chunkSegs l).getD i []).length = maxPlaintextSegmentSize) ∧
    (∀ l : List Nat, (chunkSegs l).flatten = l) ∧
    chunkSegs (List.replicate 10240 0) = [List.replicate 10240 0] ∧
    chunkSegs (List.replicate 10241 0) = [List.replicate 10240 0, [0]] ∧
    encRun 1 (encInit []) = ([], true) := by
  have hM : maxPlaintextSegmentSize = 10240 := rfl
  refine ⟨encRun_init, chunkSegs_inner_length, chunkSegs_flatten, ?_, ?_, by decide⟩
  · rw [chunkSegs]
    rw [dif_pos (by rw [List.length_replicate, hM])]
  · rw [chunkSegs]
    rw [dif_neg (by rw [List.length_replicate, hM]; omega)]
    rw [List.take_replicate, List.drop_replicate, hM]
    norm_num
    rw [chunkSegs]
    rw [dif_pos (by simp [hM])]

/-- Witness for `c4_segmentation_amended`: the 10241-byte chunk's first
segment (not the last) measures exactly 10240 bytes. -/
theorem c4_segmentation_amended_witness :
    0 + 1 < (chunkSegs (List.replicate 10241 0)).length ∧
    ((chunkSegs (List.replicate 10241 0)).getD 0 []).length =
      maxPlaintextSegmentSize := by
  have he := c4_segmentation_amended.2.2.2.2.1
  have hlen : 0 + 1 < (chunkSegs (List.replicate 10241 0)).length := by
    rw [he]
    decide
  exact ⟨hlen, c4_segmentation_amended.2.1 (List.replicate 10241 0) 0 hlen⟩

theorem innerLoop_threw (A : AEAD) (seg : List Nat) (count rs b0 b1 : Nat)
    (h2 : rs + 2 ≤ seg.length)
    (hb0 : seg[rs]? = some b0) (hb1 : seg[rs + 1]? = some b1)
    (hnz : b0 * 256 + b1 ≠ 0) (hsz : ¬ maxCiphertextSegmentSize < b0 * 256 + b1)
    (hcomp : ¬ seg.length < rs + 2 + (b0 * 256 + b1))
    (hdec : A.dec count ((seg.drop (rs + 2)).take (b0 * 256 + b1)) = none) :
    innerLoop A seg count rs = ([], rs, count, InnerStatus.threw) := by
  rw [innerLoop]
  simp [h2, hb0, hb1, hnz, hsz, hcomp, hdec]

theorem dbaeLoop_threwStep (A : AEAD) (buffer : List Nat) (brs : Nat) (st : DState)
    (evs : List DEvent) (rs' count' : Nat)
    (hb : brs < buffer.length)
    (hc : ¬ min (scratchSize - st.seg.length) (buffer.length - brs) = 0)
    (hin : innerLoop A
        (st.seg ++ (buffer.drop brs).take
          (min (scratchSize - st.seg.length) (buffer.length - brs)))
        st.count 0 = (evs, rs', count', InnerStatus.threw)) :
    dbaeLoop A buffer brs st =
      (evs,
       ⟨st.seg ++ (buffer.drop brs).take
          (min (scratchSize - st.seg.length) (buffer.length - brs)),
        count', st.isFinished⟩) := by
  have hset : ¬ scratchSize <
      st.seg.length + min (scratchSize - st.seg.length) (buffer.length - brs) := by
    omega
  rw [dbaeLoop]
  rw [dif_pos hb, dif_neg hc, dif_neg hset, hin]

/-- The inner decrypt loop never takes its instrumented out-of-bounds read
branch: whenever the guard `rs + 2 ≤ seg.length` holds, both header reads
are inside the valid region. -/
theorem innerLoop_no_oob (A : AEAD) (seg : List Nat) :
    ∀ (fuel count rs : Nat), seg.length - rs ≤ fuel →
    DEvent.error DErr.oob ∉ (innerLoop A seg count rs).1 := by
  intro fuel
  induction fuel with
  | zero =>
    intro count rs hf
    rw [innerLoop_stop A seg count rs (by omega)]
    simp
  | succ fuel ih =>
    intro count rs hf
    by_cases h2 : rs + 2 ≤ seg.length
    · have h0 : rs < seg.length := by omega
      have h1 : rs + 1 < seg.length := by omega
      have hb0 : seg[rs]? = some seg[rs] := List.getElem?_eq_getElem h0
      have hb1 : seg[rs + 1]? = some seg[rs + 1] := List.getElem?_eq_getElem h1
      by_cases hz : seg[rs] * 256 + seg[rs + 1] = 0
      · have hz0 : seg[rs] = 0 := by omega
        have hz1 : seg[rs + 1] = 0 := by omega
        rw [innerLoop_terminator A seg count rs h2 (hz0 ▸ hb0) (hz1 ▸ hb1)]
        simp
      · by_cases hsz : maxCiphertextSegmentSize < seg[rs] * 256 + seg[rs + 1]
        · rw [innerLoop_oversize A seg count rs _ _ h2 hb0 hb1 hz hsz]
          simp
        · by_cases hinc : seg.length < rs + 2 + (seg[rs] * 256 + seg[rs + 1])
          · rw [innerLoop_incomplete A seg count rs _ _ h2 hb0 hb1 hz hsz hinc]
            simp
          · cases hdec : A.dec count
                ((seg.drop (rs + 2)).take (seg[rs] * 256 + seg[rs + 1])) with
            | none =>
              rw [innerLoop_threw A seg count rs _ _ h2 hb0 hb1 hz hsz hinc hdec]
              simp
            | some p =>
              rw [innerLoop_record A seg count rs _ _ p h2 hb0 hb1 hz hsz hinc hdec]
              intro hmem
              rcases List.mem_cons.mp hmem with h | h
              · simp at h
              · exact ih (count + 1) (rs + 2 + (seg[rs] * 256 + seg[rs + 1]))
                  (by omega) h
    · rw [innerLoop_stop A seg count rs h2]
      simp

/-- Every scratch-buffer write of `decryptBufferAndEnqueue` is in bounds:
from a state whose valid region fits the scratch, the instrumented
out-of-bounds branches are never taken and the valid region never grows
beyond `scratchSize`. -/
theorem dbaeLoop_no_oob (A : AEAD) (buffer : List Nat) :
    ∀ (fuel brs : Nat) (st : DState), buffer.length - brs ≤ fuel →
    st.seg.length ≤ scratchSize →
    DEvent.error DErr.oob ∉ (dbaeLoop A buffer brs st).1 ∧
    (dbaeLoop A buffer brs st).2.seg.length ≤ scratchSize := by
  intro fuel
  induction fuel with
  | zero =>
    intro brs st hf hle
    rw [dbaeLoop_stop A buffer brs st (by omega)]
    exact ⟨by simp, hle⟩
  | succ fuel ih =>
    intro brs st hf hle
    by_cases hb : brs < buffer.length
    case neg =>
      rw [dbaeLoop_stop A buffer brs st hb]
      exact ⟨by simp, hle⟩
    case pos =>
      by_cases hc : min (scratchSize - st.seg.length) (buffer.length - brs) = 0
      · rw [dbaeLoop_zeroCopy A buffer brs st hb hc]
        exact ⟨by simp, hle⟩
      · set L := min (scratchSize - st.seg.length) (buffer.length - brs) with hLdef
        have hL1 : 1 ≤ L := by omega
        have htklen : ((buffer.drop brs).take L).length = L := by
          rw [List.length_take, List.length_drop]
          omega
        have hgrow : (st.seg ++ (buffer.drop brs).take L).length ≤ scratchSize := by
          rw [List.length_append, htklen]
          omega
        have hnoob := innerLoop_no_oob A (st.seg ++ (buffer.drop brs).take L)
          (st.seg ++ (buffer.drop brs).take L).length st.count 0 (by omega)
        rcases hinE : innerLoop A (st.seg ++ (buffer.drop brs).take L) st.count 0
          with ⟨evs, rs', count', status⟩
        rw [hinE] at hnoob
        by_cases hth : status = InnerStatus.threw
        · subst hth
          rw [dbaeLoop_threwStep A buffer brs st evs rs' count' hb hc hinE]
          rw [← hLdef]
          exact ⟨hnoob, hgrow⟩
        · rw [dbaeLoop_cont A buffer brs st evs rs' count' status hb hc hinE hth]
          rw [← hLdef]
          have hfuel' : buffer.length - (brs + L) ≤ fuel := by omega
          have hseg' : ((st.seg ++ (buffer.drop brs).take L).drop rs').length ≤
              scratchSize := by
            rw [List.length_drop]
            omega
          obtain ⟨hih1, hih2⟩ := ih (brs + L)
            ⟨(st.seg ++ (buffer.drop brs).take L).drop rs', count',
             st.isFinished || (status == InnerStatus.finished)⟩ hfuel' hseg'
          constructor
          · intro hmem
            rw [List.mem_append] at hmem
            rcases hmem with h | h
            · exact hnoob h
            · exact hih1 h
          · exact hih2

/-- **C9**: for every sequence of input buffers of any sizes and contents
(including corrupted or adversarial length prefixes), every scratch-buffer
access of the decoder is in bounds: starting from any state whose valid
region fits the scratch (in particular the initial state `dInit`), the
instrumented out-of-bounds branches of `decryptBufferAndEnqueue` are never
taken — no `oob` error is ever signalled — and the write cursor (the
valid-region length) never exceeds `scratchSize = 2 + 10256 = 10258`. -/
theorem c9_scratch_in_bounds (A : AEAD) (bufs : List (List Nat)) :
    ∀ st : DState, st.seg.length ≤ scratchSize →
    DEvent.error DErr.oob ∉ (feedAll A bufs st).1 ∧
    (feedAll A bufs st).2.seg.length ≤ scratchSize := by
  induction bufs with
  | nil =>
    intro st h
    exact ⟨by simp [feedAll], h⟩
  | cons b bs ih =>
    intro st h
    obtain ⟨h1, h2⟩ := dbaeLoop_no_oob A b b.length 0 st (by omega) h
    obtain ⟨h3, h4⟩ := ih (dbaeLoop A b 0 st).2 h2
    simp only [feedAll, dbae]
    refine ⟨?_, h4⟩
    intro hmem
    rw [List.mem_append] at hmem
    rcases hmem with hm | hm
    · exact h1 hm
    · exact h3 hm

/-- Witness for `c9_scratch_in_bounds` at a concrete adversarial buffer
(the prefix `[40, 1]` declares 10241 bytes that never arrive). -/
theorem c9_scratch_in_bounds_witness :
    dInit.seg.length ≤ scratchSize ∧
    (DEvent.error DErr.oob ∉ (feedAll tagAEAD [[40, 1, 5]] dInit).1 ∧
     (feedAll tagAEAD [[40, 1, 5]] dInit).2.seg.length ≤ scratchSize) :=
  ⟨by decide, c9_scratch_in_bounds tagAEAD [[40, 1, 5]] dInit (by decide)⟩

/-- A poisoned scratch — an oversized length prefix at the front of the
valid region — never recovers: any further input only produces error
events, and the prefix stays at the front. -/
theorem dbaeLoop_poisoned (A : AEAD) (buffer : List Nat) (b0 b1 : Nat)
    (hbig : maxCiphertextSegmentSize < b0 * 256 + b1) :
    ∀ (fuel brs : Nat) (rest : List Nat) (count : Nat) (fin : Bool),
    buffer.length - brs ≤ fuel →
    (b0 :: b1 :: rest).length ≤ scratchSize →
    (∀ ev ∈ (dbaeLoop A buffer brs ⟨b0 :: b1 :: rest, count, fin⟩).1,
       ev = DEvent.error DErr.segmentTooBig ∨ ev = DEvent.error DErr.copiedZero) ∧
    ∃ r : List Nat,
      (dbaeLoop A buffer brs ⟨b0 :: b1 :: rest, count, fin⟩).2 =
        ⟨b0 :: b1 :: r, count, fin⟩ ∧ (b0 :: b1 :: r).length ≤ scratchSize := by
  have hnz : b0 * 256 + b1 ≠ 0 := by
    have h16 := maxCiphertextSegmentSize_eq
    omega
  intro fuel
  induction fuel with
  | zero =>
    intro brs rest count fin hf hle
    rw [dbaeLoop_stop A buffer brs _ (by omega)]
    exact ⟨by simp, rest, rfl, hle⟩
  | succ fuel ih =>
    intro brs rest count fin hf hle
    by_cases hb : brs < buffer.length
    case neg =>
      rw [dbaeLoop_stop A buffer brs _ hb]
      exact ⟨by simp, rest, rfl, hle⟩
    case pos =>
      by_cases hc : min (scratchSize - (b0 :: b1 :: rest).length) (buffer.length - brs) = 0
      · rw [dbaeLoop_zeroCopy A buffer brs _ hb hc]
        refine ⟨?_, rest, rfl, hle⟩
        intro ev hev
        rw [List.mem_singleton] at hev
        exact Or.inr hev
      · set L := min (scratchSize - (b0 :: b1 :: rest).length) (buffer.length - brs)
          with hLdef
        have hL2 := hLdef
        simp only [List.length_cons] at hL2
        have htk : ((buffer.drop brs).take L).length = L := by
          rw [List.length_take, List.length_drop]
          omega
        have harg2 : (b0 :: b1 :: rest) ++ (buffer.drop brs).take L =
            b0 :: b1 :: (rest ++ (buffer.drop brs).take L) := by simp
        have hinner : innerLoop A ((b0 :: b1 :: rest) ++ (buffer.drop brs).take L)
            count 0 =
            ([DEvent.error DErr.segmentTooBig], 0, count, InnerStatus.errored) := by
          rw [harg2]
          exact innerLoop_oversize A _ count 0 b0 b1
            (by simp only [List.length_cons]; omega) (by simp) (by simp) hnz hbig
        rw [dbaeLoop_cont A buffer brs ⟨b0 :: b1 :: rest, count, fin⟩
          [DEvent.error DErr.segmentTooBig] 0 count InnerStatus.errored hb hc hinner
          (fun hcon => InnerStatus.noConfusion hcon)]
        rw [← hLdef]
        have hEEF : (InnerStatus.errored == InnerStatus.finished) = false := rfl
        rw [List.drop_zero, harg2, hEEF, Bool.or_false]
        have hle' : (b0 :: b1 :: (rest ++ (buffer.drop brs).take L)).length ≤
            scratchSize := by
          simp only [List.length_cons, List.length_append, htk]
          simp only [List.length_cons] at hle
          omega
        have hfuel' : buffer.length - (brs + L) ≤ fuel := by omega
        obtain ⟨hev', rest', hst', hle2⟩ :=
          ih (brs + L) (rest ++ (buffer.drop brs).take L) count fin hfuel' hle'
        constructor
        · intro ev hev
          rw [List.mem_append] at hev
          rcases hev with h | h
          · rw [List.mem_singleton] at h
            exact Or.inl h
          · exact hev' ev h
        · exact ⟨rest', hst', hle2⟩

/-- `dbaeLoop_poisoned` lifted over a whole sequence of delivery buffers. -/
theorem feedAll_poisoned (A : AEAD) (b0 b1 : Nat)
    (hbig : maxCiphertextSegmentSize < b0 * 256 + b1) :
    ∀ (bufs : List (List Nat)) (rest : List Nat) (count : Nat) (fin : Bool),
    (b0 :: b1 :: rest).length ≤ scratchSize →
    (∀ ev ∈ (feedAll A bufs ⟨b0 :: b1 :: rest, count, fin⟩).1,
       ev = DEvent.error DErr.segmentTooBig ∨ ev = DEvent.error DErr.copiedZero) ∧
    ∃ r : List Nat,
      (feedAll A bufs ⟨b0 :: b1 :: rest, count, fin⟩).2 =
        ⟨b0 :: b1 :: r, count, fin⟩ ∧ (b0 :: b1 :: r).length ≤ scratchSize := by
  intro bufs
  induction bufs with
  | nil =>
    intro rest count fin hle
    exact ⟨by simp [feedAll], rest, rfl, hle⟩
  | cons b bs ih =>
    intro rest count fin hle
    obtain ⟨hev1, rest1, hst1, hle1⟩ :=
      dbaeLoop_poisoned A b b0 b1 hbig b.length 0 rest count fin (by omega) hle
    obtain ⟨hev2, rest2, hst2, hle2⟩ := ih rest1 count fin hle1
    simp only [feedAll, dbae]
    rw [hst1]
    constructor
    · intro ev hev
      rw [List.mem_append] at hev
      rcases hev with h | h
      · exact hev1 ev h
      · exact hev2 ev h
    · exact ⟨rest2, hst2, hle2⟩

/-- A buffer that opens with an oversized length prefix is rejected the
moment the prefix is scanned: one `Segment too big` error, nothing
decoded, nothing consumed past the copy. -/
theorem dbae_oversized_start (A : AEAD) (b0 b1 : Nat) (body : List Nat)
    (count : Nat) (fin : Bool)
    (hbig : maxCiphertextSegmentSize < b0 * 256 + b1)
    (hfit : (b0 :: b1 :: body).length ≤ scratchSize) :
    dbae A (b0 :: b1 :: body) ⟨[], count, fin⟩ =
      ([DEvent.error DErr.segmentTooBig], ⟨b0 :: b1 :: body, count, fin⟩) := by
  have hnz : b0 * 256 + b1 ≠ 0 := by
    have h16 := maxCiphertextSegmentSize_eq
    omega
  have hlen2 : 2 ≤ (b0 :: b1 :: body).length := by
    simp only [List.length_cons]
    omega
  have hb : (0 : Nat) < (b0 :: b1 :: body).length := by omega
  have hM : min (scratchSize - ([] : List Nat).length) ((b0 :: b1 :: body).length - 0) =
      (b0 :: b1 :: body).length := by
    simp only [List.length_nil, Nat.sub_zero]
    exact Nat.min_eq_right hfit
  have harg : ([] : List Nat) ++ ((b0 :: b1 :: body).drop 0).take
      (min (scratchSize - ([] : List Nat).length) ((b0 :: b1 :: body).length - 0)) =
      b0 :: b1 :: body := by
    rw [hM]
    simp
  have hin : innerLoop A (([] : List Nat) ++ ((b0 :: b1 :: body).drop 0).take
      (min (scratchSize - ([] : List Nat).length) ((b0 :: b1 :: body).length - 0)))
      count 0 = ([DEvent.error DErr.segmentTooBig], 0, count, InnerStatus.errored) := by
    rw [harg]
    exact innerLoop_oversize A _ count 0 b0 b1 hlen2 (by simp) (by simp) hnz hbig
  rw [dbae]
  rw [dbaeLoop_cont A (b0 :: b1 :: body) 0 ⟨[], count, fin⟩
    [DEvent.error DErr.segmentTooBig] 0 count InnerStatus.errored hb
    (by show ¬ min (scratchSize - ([] : List Nat).length)
          ((b0 :: b1 :: body).length - 0) = 0
        rw [hM]
        omega)
    hin (fun hcon => InnerStatus.noConfusion hcon)]
  have hstop := dbaeLoop_stop A (b0 :: b1 :: body)
    (0 + min (scratchSize - ([] : List Nat).length) ((b0 :: b1 :: body).length - 0))
    ⟨(([] : List Nat) ++ ((b0 :: b1 :: body).drop 0).take
        (min (scratchSize - ([] : List Nat).length) ((b0 :: b1 :: body).length - 0))).drop 0,
     count, fin || (InnerStatus.errored == InnerStatus.finished)⟩
    (by rw [hM]; omega)
  rw [hstop]
  have hstate : (⟨(([] : List Nat) ++ ((b0 :: b1 :: body).drop 0).take
      (min (scratchSize - ([] : List Nat).length) ((b0 :: b1 :: body).length - 0))).drop 0,
      count, fin || (InnerStatus.errored == InnerStatus.finished)⟩ : DState) =
      ⟨b0 :: b1 :: body, count, fin⟩ := by
    have hEEF : (InnerStatus.errored == InnerStatus.finished) = false := rfl
    rw [harg, List.drop_zero, hEEF, Bool.or_false]
  rw [hstate, List.append_nil]

/-- **C3**: a 2-byte big-endian length prefix whose value exceeds
`maxCiphertextSegmentSize = 10256` is rejected: (i) the decoder immediately
signals the fatal parse error `Segment too big` on the output stream and
decodes nothing from that buffer; (ii) it decodes no further segments from
the stream — every later event is an error, never an `enqueue` of
plaintext and never a `close`; (iii) its write cursor never passes the end
of the scratch buffer. -/
theorem c3_oversized_length_rejected (A : AEAD) (b0 b1 : Nat) (body : List Nat)
    (count : Nat)
    (hbig : maxCiphertextSegmentSize < b0 * 256 + b1)
    (hfit : (b0 :: b1 :: body).length ≤ scratchSize) :
    dbae A (b0 :: b1 :: body) ⟨[], count, false⟩ =
      ([DEvent.error DErr.segmentTooBig], ⟨b0 :: b1 :: body, count, false⟩) ∧
    (∀ bufs : List (List Nat),
      ∀ ev ∈ (feedAll A bufs ⟨b0 :: b1 :: body, count, false⟩).1,
        ev = DEvent.error DErr.segmentTooBig ∨ ev = DEvent.error DErr.copiedZero) ∧
    (∀ bufs : List (List Nat),
      (feedAll A bufs ⟨b0 :: b1 :: body, count, false⟩).2.seg.length ≤
        scratchSize) := by
  refine ⟨dbae_oversized_start A b0 b1 body count false hbig hfit, ?_, ?_⟩
  · intro bufs
    exact (feedAll_poisoned A b0 b1 hbig bufs body count false hfit).1
  · intro bufs
    obtain ⟨-, r, hst, hle⟩ := feedAll_poisoned A b0 b1 hbig bufs body count false hfit
    rw [hst]
    exact hle

/-- Witness for `c3_oversized_length_rejected`: the buffer `[41, 0, 9]`
declares a 10496-byte segment (10496 > 10256) and is rejected at once. -/
theorem c3_oversized_length_rejected_witness :
    maxCiphertextSegmentSize < 41 * 256 + 0 ∧
    ([41, 0, 9] : List Nat).length ≤ scratchSize ∧
    dbae tagAEAD [41, 0, 9] ⟨[], 2, false⟩ =
      ([DEvent.error DErr.segmentTooBig], ⟨[41, 0, 9], 2, false⟩) :=
  ⟨by decide, by decide,
   (c3_oversized_length_rejected tagAEAD 41 0 [9] 2 (by decide) (by decide)).1⟩

/-- A buffer that opens with the two-byte terminator is closed upon and
marks the state finished; its trailing bytes are copied into the scratch
behind the terminator. -/
theorem dbae_terminator_start (A : AEAD) (trailing : List Nat) (count : Nat)
    (fin : Bool) (hfit : (0 :: 0 :: trailing).length ≤ scratchSize) :
    dbae A (0 :: 0 :: trailing) ⟨[], count, fin⟩ =
      ([DEvent.close], ⟨0 :: 0 :: trailing, count, true⟩) := by
  have hb : (0 : Nat) < (0 :: 0 :: trailing).length := by
    simp only [List.length_cons]
    omega
  have hM : min (scratchSize - ([] : List Nat).length)
      ((0 :: 0 :: trailing).length - 0) = (0 :: 0 :: trailing).length := by
    simp only [List.length_nil, Nat.sub_zero]
    exact Nat.min_eq_right hfit
  have harg : ([] : List Nat) ++ ((0 :: 0 :: trailing).drop 0).take
      (min (scratchSize - ([] : List Nat).length) ((0 :: 0 :: trailing).length - 0)) =
      0 :: 0 :: trailing := by
    rw [hM]
    simp
  have hin : innerLoop A (([] : List Nat) ++ ((0 :: 0 :: trailing).drop 0).take
      (min (scratchSize - ([] : List Nat).length) ((0 :: 0 :: trailing).length - 0)))
      count 0 = ([DEvent.close], 0, count, InnerStatus.finished) := by
    rw [harg]
    exact innerLoop_terminator A _ count 0 (by simp only [List.length_cons]; omega)
      (by simp) (by simp)
  rw [dbae]
  rw [dbaeLoop_cont A (0 :: 0 :: trailing) 0 ⟨[], count, fin⟩
    [DEvent.close] 0 count InnerStatus.finished hb
    (by show ¬ min (scratchSize - ([] : List Nat).length)
          ((0 :: 0 :: trailing).length - 0) = 0
        rw [hM]
        omega)
    hin (fun hcon => InnerStatus.noConfusion hcon)]
  have hstop := dbaeLoop_stop A (0 :: 0 :: trailing)
    (0 + min (scratchSize - ([] : List Nat).length) ((0 :: 0 :: trailing).length - 0))
    ⟨(([] : List Nat) ++ ((0 :: 0 :: trailing).drop 0).take
        (min (scratchSize - ([] : List Nat).length)
          ((0 :: 0 :: trailing).length - 0))).drop 0,
     count, fin || (InnerStatus.finished == InnerStatus.finished)⟩
    (by rw [hM]; omega)
  rw [hstop]
  have hstate : (⟨(([] : List Nat) ++ ((0 :: 0 :: trailing).drop 0).take
      (min (scratchSize - ([] : List Nat).length)
        ((0 :: 0 :: trailing).length - 0))).drop 0,
      count, fin || (InnerStatus.finished == InnerStatus.finished)⟩ : DState) =
      ⟨0 :: 0 :: trailing, count, true⟩ := by
    have hFF : (InnerStatus.finished == InnerStatus.finished) = true := rfl
    rw [harg, List.drop_zero, hFF, Bool.or_true]
  rw [hstate, List.append_nil]

/-- Feeding a nonempty buffer into an already-finished state whose scratch
still holds the terminator re-emits `close` and appends the buffer to the
scratch: trailing input is consumed and mutates the state. -/
theorem dbae_terminated_feed (A : AEAD) (rest b : List Nat) (count : Nat)
    (hne : b ≠ []) (hfit : (0 :: 0 :: rest).length + b.length ≤ scratchSize) :
    dbae A b ⟨0 :: 0 :: rest, count, true⟩ =
      ([DEvent.close], ⟨0 :: 0 :: (rest ++ b), count, true⟩) := by
  have hb : (0 : Nat) < b.length := List.length_pos.mpr hne
  have hM : min (scratchSize - (0 :: 0 :: rest).length) (b.length - 0) =
      b.length := by
    omega
  have harg : (0 :: 0 :: rest) ++ (b.drop 0).take
      (min (scratchSize - (0 :: 0 :: rest).length) (b.length - 0)) =
      0 :: 0 :: (rest ++ b) := by
    rw [hM]
    simp
  have hin : innerLoop A ((0 :: 0 :: rest) ++ (b.drop 0).take
      (min (scratchSize - (0 :: 0 :: rest).length) (b.length - 0))) count 0 =
      ([DEvent.close], 0, count, InnerStatus.finished) := by
    rw [harg]
    exact innerLoop_terminator A _ count 0 (by simp only [List.length_cons]; omega)
      (by simp) (by simp)
  rw [dbae]
  rw [dbaeLoop_cont A b 0 ⟨0 :: 0 :: rest, count, true⟩
    [DEvent.close] 0 count InnerStatus.finished hb
    (by show ¬ min (scratchSize - (0 :: 0 :: rest).length) (b.length - 0) = 0
        rw [hM]
        omega)
    hin (fun hcon => InnerStatus.noConfusion hcon)]
  have hstop := dbaeLoop_stop A b
    (0 + min (scratchSize - (0 :: 0 :: rest).length) (b.length - 0))
    ⟨((0 :: 0 :: rest) ++ (b.drop 0).take
        (min (scratchSize - (0 :: 0 :: rest).length) (b.length - 0))).drop 0,
     count, true || (InnerStatus.finished == InnerStatus.finished)⟩
    (by rw [hM]; omega)
  rw [hstop]
  have hstate : (⟨((0 :: 0 :: rest) ++ (b.drop 0).take
      (min (scratchSize - (0 :: 0 :: rest).length) (b.length - 0))).drop 0,
      count, true || (InnerStatus.finished == InnerStatus.finished)⟩ : DState) =
      ⟨0 :: 0 :: (rest ++ b), count, true⟩ := by
    rw [harg, List.drop_zero, Bool.true_or]
  rw [hstate, List.append_nil]

/-- After the terminator has been scanned the decoder never decrypts again:
any further input only yields `close` re-emissions and copied-zero errors,
the counter never advances, and the terminator stays at the scratch
front. -/
theorem dbaeLoop_terminated (A : AEAD) (buffer : List Nat) :
    ∀ (fuel brs : Nat) (rest : List Nat) (count : Nat),
    buffer.length - brs ≤ fuel →
    (0 :: 0 :: rest).length ≤ scratchSize →
    (∀ ev ∈ (dbaeLoop A buffer brs ⟨0 :: 0 :: rest, count, true⟩).1,
       ev = DEvent.close ∨ ev = DEvent.error DErr.copiedZero) ∧
    ∃ r : List Nat,
      (dbaeLoop A buffer brs ⟨0 :: 0 :: rest, count, true⟩).2 =
        ⟨0 :: 0 :: r, count, true⟩ ∧ (0 :: 0 :: r).length ≤ scratchSize := by
  intro fuel
  induction fuel with
  | zero =>
    intro brs rest count hf hle
    rw [dbaeLoop_stop A buffer brs _ (by omega)]
    exact ⟨by simp, rest, rfl, hle⟩
  | succ fuel ih =>
    intro brs rest count hf hle
    by_cases hb : brs < buffer.length
    case neg =>
      rw [dbaeLoop_stop A buffer brs _ hb]
      exact ⟨by simp, rest, rfl, hle⟩
    case pos =>
      by_cases hc : min (scratchSize - (0 :: 0 :: rest).length)
          (buffer.length - brs) = 0
      · rw [dbaeLoop_zeroCopy A buffer brs _ hb hc]
        refine ⟨?_, rest, rfl, hle⟩
        intro ev hev
        rw [List.mem_singleton] at hev
        exact Or.inr hev
      · set L := min (scratchSize - (0 :: 0 :: rest).length) (buffer.length - brs)
          with hLdef
        have hL2 := hLdef
        simp only [List.length_cons] at hL2
        have htk : ((buffer.drop brs).take L).length = L := by
          rw [List.length_take, List.length_drop]
          omega
        have harg2 : (0 :: 0 :: rest) ++ (buffer.drop brs).take L =
            0 :: 0 :: (rest ++ (buffer.drop brs).take L) := by simp
        have hinner : innerLoop A ((0 :: 0 :: rest) ++ (buffer.drop brs).take L)
            count 0 = ([DEvent.close], 0, count, InnerStatus.finished) := by
          rw [harg2]
          exact innerLoop_terminator A _ count 0
            (by simp only [List.length_cons]; omega) (by simp) (by simp)
        rw [dbaeLoop_cont A buffer brs ⟨0 :: 0 :: rest, count, true⟩
          [DEvent.close] 0 count InnerStatus.finished hb hc hinner
          (fun hcon => InnerStatus.noConfusion hcon)]
        rw [← hLdef]
        rw [List.drop_zero, harg2, Bool.true_or]
        have hle' : (0 :: 0 :: (rest ++ (buffer.drop brs).take L)).length ≤
            scratchSize := by
          simp only [List.length_cons, List.length_append, htk]
          simp only [List.length_cons] at hle
          omega
        have hfuel' : buffer.length - (brs + L) ≤ fuel := by omega
        obtain ⟨hev', rest', hst', hle2⟩ :=
          ih (brs + L) (rest ++ (buffer.drop brs).take L) count hfuel' hle'
        constructor
        · intro ev hev
          rw [List.mem_append] at hev
          rcases hev with h | h
          · rw [List.mem_singleton] at h
            exact Or.inl h
          · exact hev' ev h
        · exact ⟨rest', hst', hle2⟩

/-- `dbaeLoop_terminated` lifted over a whole sequence of delivery
buffers. -/
theorem feedAll_terminated (A : AEAD) :
    ∀ (bufs : List (List Nat)) (rest : List Nat) (count : Nat),
    (0 :: 0 :: rest).length ≤ scratchSize →
    (∀ ev ∈ (feedAll A bufs ⟨0 :: 0 :: rest, count, true⟩).1,
       ev = DEvent.close ∨ ev = DEvent.error DErr.copiedZero) ∧
    ∃ r : List Nat,
      (feedAll A bufs ⟨0 :: 0 :: rest, count, true⟩).2 =
        ⟨0 :: 0 :: r, count, true⟩ ∧ (0 :: 0 :: r).length ≤ scratchSize := by
  intro bufs
  induction bufs with
  | nil =>
    intro rest count hle
    exact ⟨by simp [feedAll], rest, rfl, hle⟩
  | cons b bs ih =>
    intro rest count hle
    obtain ⟨hev1, rest1, hst1, hle1⟩ :=
      dbaeLoop_terminated A b b.length 0 rest count (by omega) hle
    obtain ⟨hev2, rest2, hst2, hle2⟩ := ih rest1 count hle1
    simp only [feedAll, dbae]
    rw [hst1]
    constructor
    · intro ev hev
      rw [List.mem_append] at hev
      rcases hev with h | h
      · exact hev1 ev h
      · exact hev2 ev h
    · exact ⟨rest2, hst2, hle2⟩

/-- **C5** counterexample: after the terminator `[0, 0]` is read, feeding
the trailing byte `[7]` is *not* a silent no-op: the decoder consumes it,
emits a second `close` event, and the scratch state changes from `[0, 0]`
to `[0, 0, 7]`.  This refutes "closes the output exactly once, consumes no
further input, … changes no state". -/
theorem c5_trailing_not_discarded :
    dbae tagAEAD [0, 0] dInit = ([DEvent.close], ⟨[0, 0], 2, true⟩) ∧
    dbae tagAEAD [7] ⟨[0, 0], 2, true⟩ =
      ([DEvent.close], ⟨[0, 0, 7], 2, true⟩) ∧
    ([0, 0, 7] : List Nat) ≠ [0, 0] := by
  refine ⟨?_, ?_, by decide⟩
  · exact dbae_terminator_start tagAEAD [] 2 false (by decide)
  · have h := dbae_terminated_feed tagAEAD [] [7] 2 (by decide) (by decide)
    simpa using h

/-- **C5** (amended): reading a zero length prefix marks the stream
finished, closes the output, and no further segment is ever decrypted —
the decryption counter never advances again and every later event is a
`close` or a `copied 0 bytes` error, never an `enqueue`.  However,
contrary to the claim, input continues to be consumed after the
terminator: trailing bytes are appended to the scratch and each later
nonempty delivery re-emits `close`, so the close is not unique and the
state does change (`c5_trailing_not_discarded`). -/
theorem c5_terminator_amended (A : AEAD) (count : Nat) (trailing : List Nat)
    (hfit : (0 :: 0 :: trailing).length ≤ scratchSize) :
    dbae A (0 :: 0 :: trailing) ⟨[], count, false⟩ =
      ([DEvent.close], ⟨0 :: 0 :: trailing, count, true⟩) ∧
    (∀ bufs : List (List Nat),
      (∀ ev ∈ (feedAll A bufs ⟨0 :: 0 :: trailing, count, true⟩).1,
        ev = DEvent.close ∨ ev = DEvent.error DErr.copiedZero) ∧
      (feedAll A bufs ⟨0 :: 0 :: trailing, count, true⟩).2.isFinished = true ∧
      (feedAll A bufs ⟨0 :: 0 :: trailing, count, true⟩).2.count = count) := by
  refine ⟨dbae_terminator_start A trailing count false hfit, ?_⟩
  intro bufs
  obtain ⟨hev, r, hst, hle⟩ := feedAll_terminated A bufs trailing count hfit
  exact ⟨hev, by rw [hst], by rw [hst]⟩

/-- Witness for `c5_terminator_amended`: terminator followed by the
trailing byte `5`, delivered in one buffer. -/
theorem c5_terminator_amended_witness :
    ([0, 0, 5] : List Nat).length ≤ scratchSize ∧
    dbae tagAEAD [0, 0, 5] ⟨[], 2, false⟩ =
      ([DEvent.close], ⟨[0, 0, 5], 2, true⟩) :=
  ⟨by decide, (c5_terminator_amended tagAEAD 2 [5] (by decide)).1⟩

/-- **C10** (implicit limits): the fetch-based worker decode path caps the
declared ciphertext length of the file-name record at 512 bytes and of the
MIME record at 272 bytes.  (i) If the stream's first length prefix
declares more than 512 bytes, `decryptedStream` throws `Chunk too long`
before anything is decrypted.  (ii) If the name record is within the limit
but the following MIME prefix declares more than 272 bytes, the run
likewise ends in `Chunk too long`.  Either way the whole decode aborts
with an error, so no content segment is ever decrypted. -/
theorem c10_header_limits (A : AEAD) :
    (∀ (bufs : List (List Nat)) (b0 b1 : Nat) (restBytes : List Nat),
      bufs.flatten = b0 :: b1 :: restBytes →
      512 < b0 * 256 + b1 →
      decryptedStream A bufs = Except.error HdrErr.chunkTooLong) ∧
    (∀ (bufs : List (List Nat)) (nameCt : List Nat) (b0 b1 : Nat)
        (restBytes : List Nat),
      bufs.flatten = record nameCt ++ b0 :: b1 :: restBytes →
      nameCt.length ≤ 512 → nameCt.length < 65536 →
      272 < b0 * 256 + b1 →
      decryptedStream A bufs = Except.error HdrErr.chunkTooLong) := by
  constructor
  · intro bufs b0 b1 restBytes hflat hgt
    have h1 : readChunk bufs [] 512 = Except.error HdrErr.chunkTooLong :=
      readChunk_tooLong bufs [] 512 b0 b1 restBytes (by simpa using hflat) hgt
    simp only [decryptedStream, h1]
  · intro bufs nameCt b0 b1 restBytes hflat hle hlt hgt
    obtain ⟨leftover, bufs', hrc, hleft⟩ := readChunk_ok bufs [] 512 nameCt
      (b0 :: b1 :: restBytes) (by simpa using hflat) hle hlt
    have h2 : readChunk bufs' leftover 272 = Except.error HdrErr.chunkTooLong :=
      readChunk_tooLong bufs' leftover 272 b0 b1 restBytes hleft hgt
    simp only [decryptedStream, hrc, h2]

/-- Witness for `c10_header_limits`: the prefix `[2, 1]` declares a
513-byte name record and is rejected. -/
theorem c10_header_limits_witness :
    ([[2, 1]] : List (List Nat)).flatten = 2 :: 1 :: [] ∧
    512 < 2 * 256 + 1 ∧
    decryptedStream tagAEAD [[2, 1]] = Except.error HdrErr.chunkTooLong :=
  ⟨by decide, by decide,
   (c10_header_limits tagAEAD).1 [[2, 1]] 2 1 [] (by decide) (by decide)⟩

/-! ## `nonceFromCount` (`crypto_for_worker.js`)

`nonceFromCount(count, nonce)` runs on JavaScript numbers: `count /= 256`
is *true* (non-integer) division and the store `nonce[i] = count % 256`
relies on the `Uint8Array` ToUint8 coercion (truncate toward zero, then
reduce mod 2^8).  The counters used are nonnegative integers below 2^53,
so every intermediate value is a dyadic rational held exactly by the
double representation; the loop is embedded over `ℚ`. -/

/-- The ToUint8 coercion a `Uint8Array` store performs, for the
nonnegative values arising here: truncate, then reduce mod 256. -/
def jsToUint8 (x : ℚ) : Nat := (⌊x⌋).toNat % 256

/-- JavaScript `x % 256` for nonnegative `x`. -/
def jsFmod256 (x : ℚ) : ℚ := x - 256 * (⌊x / 256⌋ : ℚ)

/-- The `for (let i = 0; i < nonce.length; i++)` loop of `nonceFromCount`:
`nonce[i] = count % 256; count /= 256`. -/
def nonceLoop : Nat → ℚ → List Nat
  | 0, _ => []
  | n + 1, c => jsToUint8 (jsFmod256 c) :: nonceLoop n (c / 256)

/-- `nonceFromCount(count, nonce)` with the 12-byte nonce array the
callers pass (`PARAMS.iv`). -/
def nonceFromCount (c : ℚ) : List Nat := nonceLoop 12 c

theorem nonceLoop_length (n : Nat) : ∀ c : ℚ, (nonceLoop n c).length = n := by
  induction n with
  | zero => intro c; rfl
  | succ n ih =>
    intro c
    simp [nonceLoop, ih]

/-- One loop iteration: for nonnegative `x`, truncating `x % 256` yields
the low byte of `⌊x⌋`. -/
theorem jsToUint8_fmod (x : ℚ) (hx : 0 ≤ x) :
    jsToUint8 (jsFmod256 x) = (⌊x⌋).toNat % 256 := by
  have h256 : (0 : ℚ) < 256 := by norm_num
  have hq := Int.floor_le (x / 256)
  have hq2 := Int.lt_floor_add_one (x / 256)
  have hle : ((⌊x / 256⌋ : ℚ)) * 256 ≤ x := by
    calc ((⌊x / 256⌋ : ℚ)) * 256 ≤ x / 256 * 256 :=
          mul_le_mul_of_nonneg_right hq (by norm_num)
      _ = x := div_mul_cancel₀ x (by norm_num)
  have hlt : x < ((⌊x / 256⌋ : ℚ) + 1) * 256 := (div_lt_iff h256).mp hq2
  have hfl1 : 256 * ⌊x / 256⌋ ≤ ⌊x⌋ := Int.le_floor.mpr (by push_cast; linarith)
  have hfl2 : ⌊x⌋ < 256 * (⌊x / 256⌋ + 1) := Int.floor_lt.mpr (by push_cast; linarith)
  have h0 : 0 ≤ ⌊x⌋ := Int.floor_nonneg.mpr hx
  have hcast : (256 : ℚ) * (⌊x / 256⌋ : ℚ) = ((256 * ⌊x / 256⌋ : ℤ) : ℚ) := by
    push_cast
    ring
  unfold jsToUint8 jsFmod256
  rw [hcast, Int.floor_sub_int]
  omega

/-- Byte `i` of the loop output is `⌊x / 256^i⌋ mod 256`. -/
theorem nonceLoop_getD (n : Nat) :
    ∀ (x : ℚ), 0 ≤ x → ∀ i, i < n →
    (nonceLoop n x).getD i 0 = (⌊x / 256 ^ i⌋).toNat % 256 := by
  induction n with
  | zero =>
    intro x hx i hi
    omega
  | succ n ih =>
    intro x hx i hi
    cases i with
    | zero =>
      simp only [nonceLoop, List.getD_cons_zero, pow_zero, div_one]
      exact jsToUint8_fmod x hx
    | succ j =>
      simp only [nonceLoop, List.getD_cons_succ]
      have hx' : 0 ≤ x / 256 := div_nonneg hx (by norm_num)
      rw [ih (x / 256) hx' j (by omega)]
      rw [div_div, ← pow_succ']

/-- **C6**: for every counter representable without loss in a JavaScript
number (a nonnegative integer below 2^53), the derived nonce is exactly
12 bytes and byte `i` equals `⌊counter / 256^i⌋ mod 256` — the
little-endian byte-wise expansion of the counter, zero-padded in the
unused high bytes — despite the implementation's non-integer division and
reliance on typed-array truncation. -/
theorem c6_nonce_derivation (c : Nat) (hc : c < 2 ^ 53) :
    (nonceFromCount (c : ℚ)).length = 12 ∧
    ∀ i, i < 12 → (nonceFromCount (c : ℚ)).getD i 0 = c / 256 ^ i % 256 := by
  constructor
  · exact nonceLoop_length 12 (c : ℚ)
  · intro i hi
    rw [nonceFromCount, nonceLoop_getD 12 (c : ℚ) (Nat.cast_nonneg c) i hi]
    have hcast : ((256 : ℚ)) ^ i = ((256 ^ i : ℕ) : ℚ) := by
      push_cast
      ring
    rw [hcast, Int.floor_toNat, Nat.floor_div_nat, Nat.floor_natCast]

/-- Witness for `c6_nonce_derivation`: counter 300 has second byte
`300 / 256 mod 256 = 1`. -/
theorem c6_nonce_derivation_witness :
    (300 : Nat) < 2 ^ 53 ∧ (1 : Nat) < 12 ∧
    (nonceFromCount ((300 : Nat) : ℚ)).getD 1 0 = 300 / 256 ^ 1 % 256 :=
  ⟨by norm_num, by norm_num,
   (c6_nonce_derivation 300 (by norm_num)).2 1 (by norm_num)⟩

/-! ## Counter and nonce uniqueness (`upload.js` versus the legacy client)

The current uploader derives each record's nonce from a per-record counter
(`nonceFromCount`).  The legacy client does not: in `src/unnamed/part_003`
every `encrypt(key, plaintext)` call passes `PARAMS` with
`PARAMS.iv = new Uint8Array(12)` — a fixed all-zero IV — and the legacy
uploader (`src/unnamed/part_014`) passes no counter. -/

/-- `PARAMS.iv` of the legacy client: twelve zero bytes. -/
def legacyIv : List Nat := List.replicate 12 0

/-- The nonce under which the legacy client encrypts its `n`-th record:
`encrypt` takes no counter and always uses `PARAMS`, so the nonce is
`legacyIv` independently of the record index. -/
def legacyNonceForRecord (_ : Nat) : List Nat := legacyIv

theorem withCounts_map_fst (l : List (List Nat)) :
    ∀ k, (withCounts k l).map Prod.fst = List.range' k l.length := by
  induction l with
  | nil => intro k; rfl
  | cons s rest ih =>
    intro k
    simp only [withCounts, List.map_cons, List.length_cons, List.range'_succ]
    rw [ih (k + 1)]

theorem counter_list_eq (n : Nat) :
    0 :: 1 :: List.range' 2 n = List.range (n + 2) := by
  rw [List.range_eq_range', List.range'_succ, List.range'_succ]

/-- **C2** counterexample: the legacy client encrypts record 0 (the file
name) and record 1 (the MIME type) — two different encryptions under one
key — with the *same* nonce, the all-zero IV.  Nonce uniqueness fails on
the legacy path. -/
theorem c2_legacy_zero_nonce_reused :
    legacyNonceForRecord 0 = legacyNonceForRecord 1 ∧
    legacyNonceForRecord 0 = List.replicate 12 0 ∧ (0 : Nat) ≠ 1 :=
  ⟨rfl, rfl, by decide⟩

/-- **C2** (amended): in the *current* client the property holds: the name
is encrypted under counter 0, the MIME under counter 1, the content
segments under counters `2, 3, …` with no gap (i), so a transfer's counter
sequence is strictly ascending — no counter, hence no nonce, is ever
reused (ii); the `encryptStream` machine really emits exactly those
counters (iii); and the decoder consumes counters in the same ascending
order, one per record, ending at `2 + (number of records)` (iv).  The
*legacy* client violates the claim: it has no counter at all and uses the
fixed all-zero IV for every record (`c2_legacy_zero_nonce_reused`). -/
theorem c2_counter_uniqueness_amended (A : AEAD) :
    (∀ chunks : List (List Nat),
      (withCounts 2 (plainSegments chunks)).map Prod.fst =
        List.range' 2 (plainSegments chunks).length) ∧
    (∀ chunks : List (List Nat),
      List.Pairwise (· < ·)
        (0 :: 1 :: (withCounts 2 (plainSegments chunks)).map Prod.fst)) ∧
    (∀ chunks : List (List Nat),
      encRun ((plainSegments chunks).length + 1) (encInit chunks) =
        (withCounts 2 (plainSegments chunks), true)) ∧
    (∀ bufs cts plains : List (List Nat),
      goodCts cts →
      decList A 2 cts = some plains →
      bufs.flatten = wireRecords cts →
      feedAll A bufs dInit =
        (plains.map DEvent.enqueue ++ [DEvent.close],
         ⟨[0, 0], 2 + cts.length, true⟩)) := by
  refine ⟨?_, ?_, encRun_init, ?_⟩
  · intro chunks
    exact withCounts_map_fst (plainSegments chunks) 2
  · intro chunks
    rw [withCounts_map_fst (plainSegments chunks) 2, counter_list_eq]
    exact List.pairwise_lt_range _
  · intro bufs cts plains hg hd hflat
    have hpart : Partial [] cts := by
      refine ⟨List.nil_prefix, ?_⟩
      simpa using headRoom_pos cts
    exact feedAll_spec A bufs cts plains 2 [] hg hd hpart (by simpa using hflat)

/-- Witness for `c2_counter_uniqueness_amended`: a one-record stream is
decoded with the counter ending at 3. -/
theorem c2_counter_uniqueness_amended_witness :
    goodCts [tagAEAD.enc 2 [5]] ∧
    decList tagAEAD 2 [tagAEAD.enc 2 [5]] = some [[5]] ∧
    ([wireRecords [tagAEAD.enc 2 [5]]] : List (List Nat)).flatten =
      wireRecords [tagAEAD.enc 2 [5]] ∧
    feedAll tagAEAD [wireRecords [tagAEAD.enc 2 [5]]] dInit =
      ([DEvent.enqueue [5], DEvent.close], ⟨[0, 0], 3, true⟩) := by
  refine ⟨by unfold goodCts; decide, by decide, by simp, ?_⟩
  have h := (c2_counter_uniqueness_amended tagAEAD).2.2.2
    [wireRecords [tagAEAD.enc 2 [5]]] [tagAEAD.enc 2 [5]] [[5]]
    (by unfold goodCts; decide) (by decide) (by simp)
  simpa using h

/-! ## Premature transport close (`download_for_worker.js`, `upload.js`,
and the legacy WebSocket reader `src/unnamed/part_011`) -/

/-- The `pull` loop of the worker fallback `ReadableStream` (the fetch
path when `TransformStream` is unavailable), run over the whole download:
each read is fed through `decryptBufferAndEnqueue`; when the source is
exhausted (`done`) before the decoder has finished,
`controller.error(new Error("Download failed"))`; once the decoder
reports finished, `controller.close()` and no further reads. -/
def pullDrive (A : AEAD) : List (List Nat) → DState → List DEvent
  | [], st =>
    if st.isFinished then [] else [DEvent.error DErr.downloadFailed]
  | b :: rest, st =>
    let r := dbae A b st
    if r.2.isFinished then r.1 ++ [DEvent.close]
    else r.1 ++ pullDrive A rest r.2

/-- What the upload socket's `close` handler reports. -/
inductive CloseReport
  | completion  -- completionCallback(id, obj)
  | error       -- errorCallback(ev, obj, -1)
  deriving Repr, DecidableEq

/-- The upload socket's `close` handler (`upload.js`): completion is
reported only if `readToSocket` ran to the end
(`progressTracker.uploadSucceeded`) and the socket buffer fully drained;
any other close reports an error. -/
def uploadCloseOutcome (uploadSucceeded : Bool) (bufferedAmount : Nat) :
    CloseReport :=
  if uploadSucceeded && bufferedAmount == 0 then CloseReport.completion
  else CloseReport.error

/-- Events the legacy WebSocket reader's `pull` signals. -/
inductive WsEvent
  | enqueue (p : List Nat)  -- controller.enqueue(segmentPlaintext)
  | enqueueEmpty            -- controller.enqueue(EMPTY)
  | close                   -- controller.close()
  | error                   -- controller.error(new Error("Invalid segment size"))
  deriving Repr, DecidableEq

/-- How the reader's `pull` ended. -/
inductive WsStop
  | more     -- buffer consumed, pull returned normally
  | closed   -- controller.close() and return
  | errored  -- controller.error(...) and return
  | threw    -- `await decrypt(...)` rejected: the pull aborts
  | spin     -- `iterLen == 0`: the JavaScript loop never advances
  deriving Repr, DecidableEq

structure WsState where
  seg : List Nat  -- valid region of `segment` (first `segmentWriteStart` bytes)
  count : Nat     -- the decryption counter (starts at 2)
  deriving Repr, DecidableEq

/-- The inner `while (segmentWriteStart >= 2)` parse loop of the legacy
WebSocket reader, which scans the segment buffer from the front and
compacts after every decrypted record.  `fuel` bounds the iterations; each
decrypting iteration consumes at least 3 bytes, so `seg.length + 1`
always suffices. -/
def wsInner (A : AEAD) :
    Nat → List Nat → Nat → List WsEvent × List Nat × Nat × WsStop
  | 0, seg, count => ([], seg, count, WsStop.spin)
  | fuel + 1, seg, count =>
    if 2 ≤ seg.length then
      let size := seg.getD 0 0 * 256 + seg.getD 1 0
      if size = 0 then ([WsEvent.close], seg, count, WsStop.closed)
      else if maxCiphertextSegmentSize < size then
        ([WsEvent.error], seg, count, WsStop.errored)
      else if seg.length < 2 + size then ([], seg, count, WsStop.more)
      else
        match A.dec count ((seg.drop 2).take size) with
        | none => ([], seg, count, WsStop.threw)
        | some p =>
          let r := wsInner A fuel (seg.drop (2 + size)) (count + 1)
          (WsEvent.enqueue p :: r.1, r.2)
    else ([], seg, count, WsStop.more)

/-- The outer `while (bytesRead < buffer.byteLength)` loop of the reader's
`pull`: copy `min(remainingSegment, remainingBuffer)` bytes, parse,
repeat.  A zero-length copy makes the JavaScript loop spin forever,
modelled by the `spin` stop. -/
def wsOuter (A : AEAD) :
    Nat → List Nat → Nat → WsState → List WsEvent × WsState × WsStop
  | 0, _, _, st => ([], st, WsStop.spin)
  | fuel + 1, buffer, brs, st =>
    if brs < buffer.length then
      let L := min (scratchSize - st.seg.length) (buffer.length - brs)
      if L = 0 then ([], st, WsStop.spin)
      else
        let seg2 := st.seg ++ (buffer.drop brs).take L
        match wsInner A (seg2.length + 1) seg2 st.count with
        | (evs, seg', count', WsStop.more) =>
          let r := wsOuter A fuel buffer (brs + L) ⟨seg', count'⟩
          (evs ++ r.1, r.2)
        | (evs, seg', count', stop) => (evs, ⟨seg', count'⟩, stop)
    else ([], st, WsStop.more)

/-- `receivedBuffer` after awaiting the socket: the last message's bytes,
or — when the socket `close` event resolved the promise instead —
`buffer = new Uint8Array(2)`: two zero bytes. -/
def wsBufferOf : Option (List Nat) → List Nat
  | none => List.replicate 2 0
  | some b => b

def wsCountEnqueues (evs : List WsEvent) : Nat :=
  (evs.filter fun ev => match ev with
    | WsEvent.enqueue _ => true
    | _ => false).length

/-- One `pull` of the legacy WebSocket reader
(`src/unnamed/part_011`).  If the parse loop ran off the buffer without
decrypting anything, the empty array is enqueued to satisfy the stream
machinery. -/
def wsPull (A : AEAD) (received : Option (List Nat)) (st : WsState) :
    List WsEvent × WsState × WsStop :=
  let buffer := wsBufferOf received
  match wsOuter A (buffer.length + 1) buffer 0 st with
  | (evs, st', WsStop.more) =>
    (if wsCountEnqueues evs = 0 then evs ++ [WsEvent.enqueueEmpty] else evs,
     st', WsStop.more)
  | r => r

/-- Once finished, always finished: `state.isFinished` is only ever set,
never cleared. -/
theorem dbaeLoop_finished_mono (A : AEAD) (buffer : List Nat) :
    ∀ (fuel brs : Nat) (st : DState), buffer.length - brs ≤ fuel →
    st.isFinished = true → (dbaeLoop A buffer brs st).2.isFinished = true := by
  intro fuel
  induction fuel with
  | zero =>
    intro brs st hf hfin
    rw [dbaeLoop_stop A buffer brs st (by omega)]
    exact hfin
  | succ fuel ih =>
    intro brs st hf hfin
    by_cases hb : brs < buffer.length
    case neg =>
      rw [dbaeLoop_stop A buffer brs st hb]
      exact hfin
    case pos =>
      by_cases hc : min (scratchSize - st.seg.length) (buffer.length - brs) = 0
      · rw [dbaeLoop_zeroCopy A buffer brs st hb hc]
        exact hfin
      · set L := min (scratchSize - st.seg.length) (buffer.length - brs) with hLdef
        rcases hinE : innerLoop A (st.seg ++ (buffer.drop brs).take L) st.count 0
          with ⟨evs, rs', count', status⟩
        by_cases hth : status = InnerStatus.threw
        · subst hth
          rw [dbaeLoop_threwStep A buffer brs st evs rs' count' hb hc hinE]
          exact hfin
        · rw [dbaeLoop_cont A buffer brs st evs rs' count' status hb hc hinE hth]
          rw [← hLdef]
          apply ih (brs + L) _ (by omega)
          show (st.isFinished || (status == InnerStatus.finished)) = true
          rw [hfin, Bool.true_or]

theorem feedAll_finished_mono (A : AEAD) :
    ∀ (bufs : List (List Nat)) (st : DState), st.isFinished = true →
    (feedAll A bufs st).2.isFinished = true := by
  intro bufs
  induction bufs with
  | nil => intro st h; exact h
  | cons b bs ih =>
    intro st h
    simp only [feedAll, dbae]
    exact ih _ (dbaeLoop_finished_mono A b b.length 0 st (by omega) h)

/-- The inner loop closes the output only when it saw the terminator. -/
theorem innerLoop_close_finished (A : AEAD) (seg : List Nat) :
    ∀ (fuel count rs : Nat), seg.length - rs ≤ fuel →
    DEvent.close ∈ (innerLoop A seg count rs).1 →
    (innerLoop A seg count rs).2.2.2 = InnerStatus.finished := by
  intro fuel
  induction fuel with
  | zero =>
    intro count rs hf hmem
    rw [innerLoop_stop A seg count rs (by omega)] at hmem ⊢
    exact absurd hmem (by simp)
  | succ fuel ih =>
    intro count rs hf hmem
    by_cases h2 : rs + 2 ≤ seg.length
    · have h0 : rs < seg.length := by omega
      have h1 : rs + 1 < seg.length := by omega
      have hb0 : seg[rs]? = some seg[rs] := List.getElem?_eq_getElem h0
      have hb1 : seg[rs + 1]? = some seg[rs + 1] := List.getElem?_eq_getElem h1
      by_cases hz : seg[rs] * 256 + seg[rs + 1] = 0
      · have hz0 : seg[rs] = 0 := by omega
        have hz1 : seg[rs + 1] = 0 := by omega
        rw [innerLoop_terminator A seg count rs h2 (hz0 ▸ hb0) (hz1 ▸ hb1)]
      · by_cases hsz : maxCiphertextSegmentSize < seg[rs] * 256 + seg[rs + 1]
        · rw [innerLoop_oversize A seg count rs _ _ h2 hb0 hb1 hz hsz] at hmem
          exact absurd hmem (by simp)
        · by_cases hinc : seg.length < rs + 2 + (seg[rs] * 256 + seg[rs + 1])
          · rw [innerLoop_incomplete A seg count rs _ _ h2 hb0 hb1 hz hsz hinc] at hmem
            exact absurd hmem (by simp)
          · cases hdec : A.dec count
                ((seg.drop (rs + 2)).take (seg[rs] * 256 + seg[rs + 1])) with
            | none =>
              rw [innerLoop_threw A seg count rs _ _ h2 hb0 hb1 hz hsz hinc hdec] at hmem
              exact absurd hmem (by simp)
            | some p =>
              rw [innerLoop_record A seg count rs _ _ p h2 hb0 hb1 hz hsz hinc hdec]
                at hmem ⊢
              rcases List.mem_cons.mp hmem with h | h
              · simp at h
              · exact ih (count + 1) (rs + 2 + (seg[rs] * 256 + seg[rs + 1]))
                  (by omega) h
    · rw [innerLoop_stop A seg count rs h2] at hmem
      exact absurd hmem (by simp)

/-- `decryptBufferAndEnqueue` closes the output only if the terminator was
seen, in which case the state is marked finished. -/
theorem dbaeLoop_close_finished (A : AEAD) (buffer : List Nat) :
    ∀ (fuel brs : Nat) (st : DState), buffer.length - brs ≤ fuel →
    DEvent.close ∈ (dbaeLoop A buffer brs st).1 →
    (dbaeLoop A buffer brs st).2.isFinished = true := by
  intro fuel
  induction fuel with
  | zero =>
    intro brs st hf hmem
    rw [dbaeLoop_stop A buffer brs st (by omega)] at hmem
    exact absurd hmem (by simp)
  | succ fuel ih =>
    intro brs st hf hmem
    by_cases hb : brs < buffer.length
    case neg =>
      rw [dbaeLoop_stop A buffer brs st hb] at hmem
      exact absurd hmem (by simp)
    case pos =>
      by_cases hc : min (scratchSize - st.seg.length) (buffer.length - brs) = 0
      · rw [dbaeLoop_zeroCopy A buffer brs st hb hc] at hmem
        exact absurd hmem (by simp)
      · set L := min (scratchSize - st.seg.length) (buffer.length - brs) with hLdef
        rcases hinE : innerLoop A (st.seg ++ (buffer.drop brs).take L) st.count 0
          with ⟨evs, rs', count', status⟩
        by_cases hth : status = InnerStatus.threw
        · subst hth
          exfalso
          rw [dbaeLoop_threwStep A buffer brs st evs rs' count' hb hc hinE] at hmem
          have hcl := innerLoop_close_finished A
            (st.seg ++ (buffer.drop brs).take L)
            (st.seg ++ (buffer.drop brs).take L).length st.count 0 (by omega)
            (by rw [hinE]; exact hmem)
          rw [hinE] at hcl
          exact InnerStatus.noConfusion hcl
        · rw [dbaeLoop_cont A buffer brs st evs rs' count' status hb hc hinE hth]
          rw [dbaeLoop_cont A buffer brs st evs rs' count' status hb hc hinE hth] at hmem
          rw [← hLdef] at hmem ⊢
          rw [List.mem_append] at hmem
          rcases hmem with hm | hm
          · have hcl := innerLoop_close_finished A
              (st.seg ++ (buffer.drop brs).take L)
              (st.seg ++ (buffer.drop brs).take L).length st.count 0 (by omega)
              (by rw [hinE]; exact hm)
            rw [hinE] at hcl
            replace hcl : status = InnerStatus.finished := hcl
            apply dbaeLoop_finished_mono A buffer fuel (brs + L) _ (by omega)
            show (st.isFinished || (status == InnerStatus.finished)) = true
            rw [hcl]
            simp
          · exact ih (brs + L) _ (by omega) hm

theorem feedAll_close_finished (A : AEAD) :
    ∀ (bufs : List (List Nat)) (st : DState),
    DEvent.close ∈ (feedAll A bufs st).1 →
    (feedAll A bufs st).2.isFinished = true := by
  intro bufs
  induction bufs with
  | nil =>
    intro st h
    exact absurd h (by simp [feedAll])
  | cons b bs ih =>
    intro st h
    simp only [feedAll, dbae] at h ⊢
    rw [List.mem_append] at h
    rcases h with h | h
    · exact feedAll_finished_mono A bs _
        (dbaeLoop_close_finished A b b.length 0 st (by omega) h)
    · exact ih _ h

/-- If the source ends before the decoder finished, the fallback pull loop
reports `Download failed` after the decoded prefix. -/
theorem pullDrive_premature (A : AEAD) :
    ∀ (bufs : List (List Nat)) (st : DState),
    (feedAll A bufs st).2.isFinished = false →
    pullDrive A bufs st =
      (feedAll A bufs st).1 ++ [DEvent.error DErr.downloadFailed] := by
  intro bufs
  induction bufs with
  | nil =>
    intro st h
    replace h : st.isFinished = false := h
    simp [pullDrive, feedAll, h]
  | cons b bs ih =>
    intro st h
    have hfeed : feedAll A (b :: bs) st =
        ((dbae A b st).1 ++ (feedAll A bs (dbae A b st).2).1,
         (feedAll A bs (dbae A b st).2).2) := by
      simp only [feedAll]
    by_cases hfin : (dbae A b st).2.isFinished = true
    · exfalso
      have hmono := feedAll_finished_mono A bs _ hfin
      rw [hfeed] at h
      replace h : (feedAll A bs (dbae A b st).2).2.isFinished = false := h
      rw [hmono] at h
      exact Bool.noConfusion h
    · simp only [pullDrive]
      rw [if_neg hfin]
      have h' : (feedAll A bs (dbae A b st).2).2.isFinished = false := by
        rw [hfeed] at h
        exact h
      rw [ih _ h', hfeed]
      simp only [List.append_assoc]

/-- **C8** counterexample: when the socket closes before any message, the
legacy WebSocket reader's promise resolves with `receivedBuffer = null`,
`pull` substitutes the 2-byte zero buffer, parses it as the terminator,
and *closes* the output stream: a premature transport close is reported as
clean success, not as an error. -/
theorem c8_ws_premature_close_succeeds :
    wsPull tagAEAD none ⟨[], 2⟩ =
      ([WsEvent.close], ⟨[0, 0], 2⟩, WsStop.closed) ∧
    WsStop.closed ≠ WsStop.errored ∧
    WsEvent.error ∉ [WsEvent.close] := by
  refine ⟨by decide, by decide, by decide⟩

/-- **C8** (amended): a transport that ends before the terminator is an
error for the worker fetch path and for the upload writer — (i) the
fallback pull loop appends a `Download failed` error to the decoded
output and never closes the plaintext stream; (ii) the upload close
handler never reports completion unless `readToSocket` finished.  The
legacy WebSocket reader, however, violates the claim: it turns a
premature socket close into a clean close of the output
(`c8_ws_premature_close_succeeds`). -/
theorem c8_premature_close_amended (A : AEAD) :
    (∀ (bufs : List (List Nat)) (st : DState),
      (feedAll A bufs st).2.isFinished = false →
      pullDrive A bufs st =
        (feedAll A bufs st).1 ++ [DEvent.error DErr.downloadFailed] ∧
      DEvent.close ∉ pullDrive A bufs st) ∧
    (∀ q : Nat, uploadCloseOutcome false q = CloseReport.error) := by
  constructor
  · intro bufs st h
    refine ⟨pullDrive_premature A bufs st h, ?_⟩
    rw [pullDrive_premature A bufs st h]
    intro hmem
    rw [List.mem_append] at hmem
    rcases hmem with hm | hm
    · have hcl := feedAll_close_finished A bufs st hm
      rw [hcl] at h
      exact Bool.noConfusion h
    · rw [List.mem_singleton] at hm
      exact DEvent.noConfusion hm
  · intro q
    simp [uploadCloseOutcome]

/-- Witness for `c8_premature_close_amended`: an immediately-exhausted
source on a fresh state yields exactly the `Download failed` error. -/
theorem c8_premature_close_amended_witness :
    (feedAll tagAEAD [] dInit).2.isFinished = false ∧
    pullDrive tagAEAD [] dInit =
      (feedAll tagAEAD [] dInit).1 ++ [DEvent.error DErr.downloadFailed] ∧
    uploadCloseOutcome false 5 = CloseReport.error :=
  ⟨rfl,
   ((c8_premature_close_amended tagAEAD).1 [] dInit rfl).1,
   (c8_premature_close_amended tagAEAD).2 5⟩

/-! ## Upload backpressure and progress (`upload.js` `readToSocket`)

`readToSocket` is embedded as a step machine.  Each read of
`socket.bufferedAmount` consumes one tick; the mock transport is a
function `m : Nat → Nat` giving how many queued bytes it drains at each
tick (an arbitrary, possibly zero, drain schedule), so the queue reading
is always the genuine `sent − drained`.  `expectedBufferedAmount`,
`socket.send` totals, drain totals and reported-progress totals are
tracked in the state; `progressCallback` invocations and `socket.send`
calls are recorded as events.  The socket is taken to stay open — closing
is the concern of the close handler, not of `readToSocket`'s loop. -/

/-- `MAX_BUFFERED_AMOUNT` from `upload.js`. -/
def MAX_BUFFERED_AMOUNT : Int := 10000000

/-- `updateProgress(socket, expectedBufferedAmount, …)`: report
`progress = expected − actual` and return `expected − progress`. -/
def updateProgress (actualBufferedAmount expectedBufferedAmount : Int) :
    Int × Int :=
  let progress := expectedBufferedAmount - actualBufferedAmount
  (progress, expectedBufferedAmount - progress)

inductive WEvent
  | send (n : Nat) (t : Nat)    -- socket.send of an n-byte chunk, entered after the guard read at tick t
  | report (p : Int) (t : Nat)  -- progressCallback(id, p, obj) against the tick-t read
  deriving Repr, DecidableEq

inductive WPhase
  | main                 -- top of the `while (socket.readyState == OPEN)` loop
  | wait (c : List Nat)  -- inside the backpressure wait loop, chunk c pending
  | drain                -- the post-loop `while (… expectedBufferedAmount > 0)` loop
  | done                 -- progressTracker.uploadSucceeded = true
  deriving Repr, DecidableEq

structure WrState where
  chunks : List (List Nat)  -- remaining reader.read() results
  expected : Int            -- expectedBufferedAmount
  buf : Int                 -- socket.bufferedAmount
  sent : Int                -- cumulative bytes handed to socket.send
  drained : Int             -- cumulative bytes the transport has drained
  reported : Int            -- cumulative progress reported
  time : Nat                -- number of bufferedAmount reads so far
  phase : WPhase
  deriving Repr, DecidableEq

/-- Reading `socket.bufferedAmount` at tick `t`: the transport first
drains up to `m t` queued bytes, then the read returns the new amount. -/
def tickRead (m : Nat → Nat) (t : Nat) (buf : Int) : Int :=
  max (buf - m t) 0

/-- One step of `readToSocket`. -/
def stepWriter (m : Nat → Nat) (st : WrState) : WrState × List WEvent :=
  match st.phase with
  | WPhase.main =>
    match st.chunks with
    | [] => ({ st with phase := WPhase.drain }, [])
    | c :: rest => ({ st with chunks := rest, phase := WPhase.wait c }, [])
  | WPhase.wait c =>
    let q := tickRead m st.time st.buf
    let d := st.drained + (st.buf - q)
    if MAX_BUFFERED_AMOUNT < q then
      -- one wait-loop iteration: sleep, then updateProgress (second read)
      let q2 := tickRead m (st.time + 1) q
      let d2 := d + (q - q2)
      let pr := updateProgress q2 st.expected
      ({ st with expected := pr.2, buf := q2, drained := d2,
                 reported := st.reported + pr.1, time := st.time + 2 },
       [WEvent.report pr.1 (st.time + 1)])
    else
      -- past the guard: count the bytes, send, updateProgress
      let e2 := st.expected + (c.length : Int)
      let bufSent := q + (c.length : Int)
      let q2 := tickRead m (st.time + 1) bufSent
      let d2 := d + (bufSent - q2)
      let pr := updateProgress q2 e2
      ({ st with expected := pr.2, buf := q2,
                 sent := st.sent + (c.length : Int), drained := d2,
                 reported := st.reported + pr.1, time := st.time + 2,
                 phase := WPhase.main },
       [WEvent.send c.length st.time, WEvent.report pr.1 (st.time + 1)])
  | WPhase.drain =>
    if 0 < st.expected then
      let q := tickRead m st.time st.buf
      let d := st.drained + (st.buf - q)
      let pr := updateProgress q st.expected
      ({ st with expected := pr.2, buf := q, drained := d,
                 reported := st.reported + pr.1, time := st.time + 1 },
       [WEvent.report pr.1 st.time])
    else
      ({ st with phase := WPhase.done }, [])
  | WPhase.done => (st, [])

/-- Run `n` steps, collecting the event trace. -/
def runWriter (m : Nat → Nat) : Nat → WrState → WrState × List WEvent
  | 0, st => (st, [])
  | n + 1, st =>
    let r := stepWriter m st
    let r2 := runWriter m n r.1
    (r2.1, r.2 ++ r2.2)

/-- `readToSocket`'s initial state: `expectedBufferedAmount = 0`, nothing
sent, nothing drained, nothing reported. -/
def wInit (chunks : List (List Nat)) : WrState :=
  ⟨chunks, 0, 0, 0, 0, 0, 0, WPhase.main⟩

/-- Total progress handed to the progress observer in a trace. -/
def reportSum : List WEvent → Int
  | [] => 0
  | WEvent.report p _ :: r => p + reportSum r
  | _ :: r => reportSum r

/-- Total bytes handed to `socket.send` in a trace. -/
def sendSum : List WEvent → Int
  | [] => 0
  | WEvent.send n _ :: r => (n : Int) + sendSum r
  | _ :: r => sendSum r

/-- The writer's arithmetic invariant: the reported total never exceeds
the drained total, which never exceeds the sent total; the queue is
exactly the unsent remainder; `expectedBufferedAmount` is exactly the
sent-but-unreported remainder. -/
def WrInv (st : WrState) : Prop :=
  0 ≤ st.reported ∧ st.reported ≤ st.drained ∧ st.drained ≤ st.sent ∧
  st.buf = st.sent - st.drained ∧ st.expected = st.sent - st.reported

theorem reportSum_append (a b : List WEvent) :
    reportSum (a ++ b) = reportSum a + reportSum b := by
  induction a with
  | nil => simp [reportSum]
  | cons ev r ih =>
    cases ev with
    | send n t => simp [reportSum, ih]
    | report p t => simp [reportSum, ih]; ring

theorem sendSum_append (a b : List WEvent) :
    sendSum (a ++ b) = sendSum a + sendSum b := by
  induction a with
  | nil => simp [sendSum]
  | cons ev r ih =>
    cases ev with
    | send n t => simp [sendSum, ih]; ring
    | report p t => simp [sendSum, ih]

/-- Every step preserves the invariant. -/
theorem stepWriter_inv (m : Nat → Nat) (st : WrState) (h : WrInv st) :
    WrInv (stepWriter m st).1 := by
  obtain ⟨h0, h1, h2, h3, h4⟩ := h
  rcases st with ⟨chunks, e, b, s, d, r, t, ph⟩
  simp only at h0 h1 h2 h3 h4
  cases ph with
  | main =>
    cases chunks with
    | nil => exact ⟨h0, h1, h2, h3, h4⟩
    | cons c rest => exact ⟨h0, h1, h2, h3, h4⟩
  | wait c =>
    simp only [stepWriter, tickRead, updateProgress]
    split
    · refine ⟨?_, ?_, ?_, ?_, ?_⟩ <;> simp only [WrInv] <;> omega
    · refine ⟨?_, ?_, ?_, ?_, ?_⟩ <;> simp only [WrInv] <;> omega
  | drain =>
    simp only [stepWriter, tickRead, updateProgress]
    split
    · refine ⟨?_, ?_, ?_, ?_, ?_⟩ <;> simp only [WrInv] <;> omega
    · exact ⟨h0, h1, h2, h3, h4⟩
  | done => exact ⟨h0, h1, h2, h3, h4⟩

/-- Every step adds to the state totals exactly what it records in the
trace. -/
theorem stepWriter_sums (m : Nat → Nat) (st : WrState) :
    (stepWriter m st).1.reported = st.reported + reportSum (stepWriter m st).2 ∧
    (stepWriter m st).1.sent = st.sent + sendSum (stepWriter m st).2 := by
  rcases st with ⟨chunks, e, b, s, d, r, t, ph⟩
  cases ph with
  | main =>
    cases chunks with
    | nil => exact ⟨by simp [stepWriter, reportSum], by simp [stepWriter, sendSum]⟩
    | cons c rest =>
      exact ⟨by simp [stepWriter, reportSum], by simp [stepWriter, sendSum]⟩
  | wait c =>
    simp only [stepWriter, tickRead, updateProgress]
    split
    · constructor <;> simp [reportSum, sendSum]
    · constructor <;> simp [reportSum, sendSum]
  | drain =>
    simp only [stepWriter, tickRead, updateProgress]
    split
    · constructor <;> simp [reportSum, sendSum]
    · constructor <;> simp [reportSum, sendSum]
  | done => exact ⟨by simp [stepWriter, reportSum], by simp [stepWriter, sendSum]⟩

theorem runWriter_inv (m : Nat → Nat) :
    ∀ (n : Nat) (st : WrState), WrInv st → WrInv (runWriter m n st).1 := by
  intro n
  induction n with
  | zero => intro st h; exact h
  | succ n ih =>
    intro st h
    simp only [runWriter]
    exact ih _ (stepWriter_inv m st h)

theorem runWriter_sums (m : Nat → Nat) :
    ∀ (n : Nat) (st : WrState),
    (runWriter m n st).1.reported = st.reported + reportSum (runWriter m n st).2 ∧
    (runWriter m n st).1.sent = st.sent + sendSum (runWriter m n st).2 := by
  intro n
  induction n with
  | zero => intro st; exact ⟨by simp [runWriter, reportSum], by simp [runWriter, sendSum]⟩
  | succ n ih =>
    intro st
    simp only [runWriter, reportSum_append, sendSum_append]
    obtain ⟨hr1, hs1⟩ := stepWriter_sums m st
    obtain ⟨hr2, hs2⟩ := ih (stepWriter m st).1
    constructor
    · rw [hr2, hr1]
      ring
    · rw [hs2, hs1]
      ring

/-- Against a transport that drains nothing while its queue sits above the
high-water mark, the writer never sends again: each step only reports
progress and the queue never moves. -/
theorem stepWriter_highwater (m : Nat → Nat) (st : WrState)
    (hm : ∀ t, m t = 0) (hhi : MAX_BUFFERED_AMOUNT < st.buf) :
    (stepWriter m st).1.buf = st.buf ∧
    ∀ (nb t : Nat), WEvent.send nb t ∉ (stepWriter m st).2 := by
  have hpos : (0 : Int) ≤ st.buf := by
    have : (0 : Int) < MAX_BUFFERED_AMOUNT := by norm_num [MAX_BUFFERED_AMOUNT]
    omega
  rcases st with ⟨chunks, e, b, s, d, r, t, ph⟩
  simp only at hhi hpos
  cases ph with
  | main =>
    cases chunks with
    | nil => exact ⟨rfl, by simp [stepWriter]⟩
    | cons c rest => exact ⟨rfl, by simp [stepWriter]⟩
  | wait c =>
    have hq : tickRead m t b = b := by
      simp only [tickRead, hm t, Nat.cast_zero, sub_zero]
      omega
    have hq2 : tickRead m (t + 1) b = b := by
      simp only [tickRead, hm (t + 1), Nat.cast_zero, sub_zero]
      omega
    simp only [stepWriter, hq]
    rw [if_pos hhi]
    constructor
    · simp [hq2]
    · intro nb tt
      simp
  | drain =>
    have hq : tickRead m t b = b := by
      simp only [tickRead, hm t, Nat.cast_zero, sub_zero]
      omega
    simp only [stepWriter, hq]
    split
    · constructor
      · rfl
      · intro nb tt
        simp
    · exact ⟨rfl, by simp⟩
  | done => exact ⟨rfl, by simp [stepWriter]⟩

/-- **C7**: (i) against a mock transport that keeps its queue above the
high-water mark `MAX_BUFFERED_AMOUNT = 10 000 000` (and drains nothing, so
the reported size never decreases), the writer performs zero sends — it
only keeps reporting progress; (ii) in every execution against every
drain schedule, the invariant holds at every step: cumulative reported
progress is nonnegative, never exceeds the bytes the transport has
actually drained from its outbound buffer, and never exceeds the
cumulative bytes handed to `socket.send` — in particular the traced
report total never exceeds the traced send total. -/
theorem c7_backpressure_and_progress :
    (∀ (m : Nat → Nat) (n : Nat) (st : WrState),
      (∀ t, m t = 0) → MAX_BUFFERED_AMOUNT < st.buf →
      ∀ (nb t : Nat), WEvent.send nb t ∉ (runWriter m n st).2) ∧
    (∀ (m : Nat → Nat) (n : Nat) (chunks : List (List Nat)),
      0 ≤ (runWriter m n (wInit chunks)).1.reported ∧
      (runWriter m n (wInit chunks)).1.reported ≤
        (runWriter m n (wInit chunks)).1.drained ∧
      (runWriter m n (wInit chunks)).1.drained ≤
        (runWriter m n (wInit chunks)).1.sent ∧
      reportSum (runWriter m n (wInit chunks)).2 ≤
        sendSum (runWriter m n (wInit chunks)).2) := by
  constructor
  · intro m n
    induction n with
    | zero =>
      intro st hm hhi nb t
      simp [runWriter]
    | succ n ih =>
      intro st hm hhi nb t
      simp only [runWriter]
      obtain ⟨hbuf, hnosend⟩ := stepWriter_highwater m st hm hhi
      intro hmem
      rw [List.mem_append] at hmem
      rcases hmem with hmm | hmm
      · exact hnosend nb t hmm
      · exact ih (stepWriter m st).1 hm (hbuf ▸ hhi) nb t hmm
  · intro m n chunks
    have hinv : WrInv (runWriter m n (wInit chunks)).1 :=
      runWriter_inv m n (wInit chunks) ⟨le_refl 0, le_refl 0, le_refl 0, rfl, rfl⟩
    obtain ⟨h0, h1, h2, h3, h4⟩ := hinv
    obtain ⟨hr, hs⟩ := runWriter_sums m n (wInit chunks)
    refine ⟨h0, h1, h2, ?_⟩
    have hrz : reportSum (runWriter m n (wInit chunks)).2 =
        (runWriter m n (wInit chunks)).1.reported := by
      rw [hr]
      simp [wInit]
    have hsz : sendSum (runWriter m n (wInit chunks)).2 =
        (runWriter m n (wInit chunks)).1.sent := by
      rw [hs]
      simp [wInit]
    rw [hrz, hsz]
    omega

/-- Witness for `c7_backpressure_and_progress`: with a never-draining
transport already above the mark, three steps produce no send; two steps
from the initial state on a one-chunk file keep reports within sends. -/
theorem c7_backpressure_and_progress_witness :
    MAX_BUFFERED_AMOUNT < (10000001 : Int) ∧
    WEvent.send 1 0 ∉
      (runWriter (fun _ => 0) 3
        ⟨[[1]], 0, 10000001, 10000001, 0, 0, 0, WPhase.main⟩).2 ∧
    reportSum (runWriter (fun _ => 0) 2 (wInit [[1]])).2 ≤
      sendSum (runWriter (fun _ => 0) 2 (wInit [[1]])).2 :=
  ⟨by norm_num [MAX_BUFFERED_AMOUNT],
   c7_backpressure_and_progress.1 (fun _ => 0) 3
     ⟨[[1]], 0, 10000001, 10000001, 0, 0, 0, WPhase.main⟩
     (fun _ => rfl) (by norm_num [MAX_BUFFERED_AMOUNT]) 1 0,
   (c7_backpressure_and_progress.2 (fun _ => 0) 2 [[1]]).2.2.2⟩

end Transpo
